import Mathlib

/-!
Verification development for the `pyproject-fmt` command-line front end
(`src/pyproject_fmt/cli.py`) and its document-formatting engine.

The CLI module is embedded directly from the Python source: the filesystem
and the behaviour of the `argparse` library (for the exact parser built by
`_build_cli`) are modelled explicitly, and `pyproject_toml_path_creator`,
`cli_args` and `PyProjectFmtNamespace.configs` are translated function by
function.  Paths are modelled as strings, `Path.absolute` as prefixing the
current working directory, and `os.access` / `Path.exists` / `Path.is_dir` /
`Path.is_file` as fields of an abstract `FileSystem` record.

The formatting engine itself (the Rust core driven by this CLI) is not part
of the translated sources; it is modelled from the specification in the
second half of this file, at line granularity, and its stated properties
(idempotence of `format`, trailing-zero version trimming) are proved against
that model.
-/

namespace PyprojectFmt

/-- Abstract filesystem state seen by the CLI: existence, directory/regular
file status, read/write permission (`os.access`), and the UTF-8 decoded text
content of each path.  Paths are plain strings. -/
structure FileSystem where
  pathExists : String → Bool
  isDir : String → Bool
  isFile : String → Bool
  readable : String → Bool
  writable : String → Bool
  content : String → String

/-- A path is absolute when it starts with the separator character. -/
def isAbsolute (s : String) : Bool :=
  match s.data with
  | '/' :: _ => true
  | _ => false

/-- Model of `pathlib.Path(argument).absolute()`: a relative path is
interpreted against the current working directory, an absolute path is kept
as given (no normalisation is performed, matching `Path.absolute`). -/
def absolutePath (cwd argument : String) : String :=
  if isAbsolute argument then argument else cwd ++ "/" ++ argument

/-- Decimal digit test for a character. -/
def isDig (c : Char) : Bool := '0' ≤ c && c ≤ '9'

/-- Numeric value of a list of decimal digit characters (most significant
first). -/
def digitsToNat (cs : List Char) : Nat :=
  cs.foldl (fun acc c => 10 * acc + (c.toNat - '0'.toNat)) 0

/-- Model of Python's `int(s)` conversion as used by `argparse` for
`type=int`: an optional sign followed by a non-empty run of decimal digits
(whitespace/underscore niceties of CPython are not modelled). -/
def python_int (s : String) : Option Int :=
  match s.data with
  | '-' :: ds =>
      if ds ≠ [] ∧ ds.all isDig then some (-(digitsToNat ds : Int)) else none
  | '+' :: ds =>
      if ds ≠ [] ∧ ds.all isDig then some (digitsToNat ds : Int) else none
  | ds =>
      if ds ≠ [] ∧ ds.all isDig then some (digitsToNat ds : Int) else none

/-- Interface model of `packaging.version.Version` (external dependency):
an epoch, the release as a list of numeric components, and the remaining
pre/post/dev/local suffix kept verbatim. -/
structure PyVersion where
  epoch : Nat
  release : List Nat
  suffix : List Char
  deriving DecidableEq, Repr

/-- Letters that can open a pre/post/dev word of a version suffix
(`a`, `b`, `c`, `rc`/`r`, `pre`/`post`, `dev`). -/
def suffixHeadLetterOk (c : Char) : Bool :=
  c = 'a' || c = 'b' || c = 'c' || c = 'r' || c = 'p' || c = 'd'

/-- Characters allowed anywhere in the pre/post/dev/local suffix. -/
def suffixCharOk (c : Char) : Bool :=
  c.isAlphanum || c = '.' || c = '-' || c = '_' || c = '+' || c = '!'

/-- After a separator, the suffix must continue with a suffix word or a
number. -/
def suffixStartOk : List Char → Bool
  | [] => false
  | c :: _ => suffixHeadLetterOk c || isDig c

/-- Loose acceptance test for the version suffix after the release segment:
a pre/post/dev word (optionally preceded by a separator) or a `+local`
segment, over the restricted character set. -/
def suffixOk : List Char → Bool
  | [] => true
  | c :: cs =>
      (((c = '.' || c = '-' || c = '_') && suffixStartOk cs) ||
        suffixHeadLetterOk c || c = '+') &&
      (c :: cs).all suffixCharOk

/-- Parse the dotted release segment: a non-empty digit run, then repeated
`.` + non-empty digit runs; returns the components and the unconsumed rest.
Structural recursion on a fuel argument (one unit per `.NUM` group) keeps
the definition kernel-reducible; callers pass the input length as fuel,
which always suffices. -/
def parseRelMore : Nat → List Nat → List Char → List Nat × List Char
  | 0, acc, l => (acc, l)
  | fuel + 1, acc, '.' :: rest =>
      if rest.takeWhile isDig = [] then (acc, '.' :: rest)
      else
        parseRelMore fuel (acc ++ [digitsToNat (rest.takeWhile isDig)])
          (rest.dropWhile isDig)
  | _ + 1, acc, rest => (acc, rest)

/-- Interface model of the `packaging.version.Version` constructor: strips an
optional `v`/`V` prefix, parses an optional `N!` epoch and the dotted release
numbers, and accepts a loosely validated pre/post/dev/local suffix; returns
`none` exactly when `packaging` would raise `InvalidVersion` (modulo the
simplified suffix grammar). -/
def python_Version (s : String) : Option PyVersion :=
  let cs :=
    match s.data with
    | 'v' :: r => r
    | 'V' :: r => r
    | r => r
  let d0 := cs.takeWhile isDig
  let r0 := cs.dropWhile isDig
  if d0 = [] then none
  else
    match r0 with
    | '!' :: r1 =>
        let d1 := r1.takeWhile isDig
        let r2 := r1.dropWhile isDig
        if d1 = [] then none
        else
          let (rel, rest) := parseRelMore r2.length [digitsToNat d1] r2
          if suffixOk rest then some ⟨digitsToNat d0, rel, rest⟩ else none
    | _ =>
        let (rel, rest) := parseRelMore r0.length [digitsToNat d0] r0
        if suffixOk rest then some ⟨0, rel, rest⟩ else none

/-- Modelled from the spec: `DEFAULT_INDENT` of the missing `config.py`
("`--indent <int>`: spaces per nesting level, default defined by the system
(e.g. 2)"). -/
def DEFAULT_INDENT : Int := 2

/-- Modelled from the spec: `DEFAULT_MAX_SUPPORTED_PYTHON` of the missing
`config.py`; the CLI help names `3.13` as the example value. -/
def DEFAULT_MAX_SUPPORTED_PYTHON : PyVersion := ⟨0, [3, 13], []⟩

/-- Modelled from the spec: the `Config` record of the missing `config.py`,
exactly the fields constructed by `PyProjectFmtNamespace.configs`. -/
structure Config where
  pyproject_toml : String
  toml : String
  indent : Int
  keep_full_version : Bool
  max_supported_python : PyVersion
  deriving DecidableEq, Repr

/-- Parsed options of the CLI (`PyProjectFmtNamespace`): validated input
paths plus the five option values. -/
structure PyProjectFmtNamespace where
  inputs : List String
  stdout : Bool
  check : Bool
  indent : Int
  keep_full_version : Bool
  max_supported_python : PyVersion
  deriving DecidableEq, Repr

/-- Translation of the `configs` property: one `Config` per input path, in
order, reading each file's text content. -/
def configs (fs : FileSystem) (ns : PyProjectFmtNamespace) : List Config :=
  ns.inputs.map fun toml =>
    { pyproject_toml := toml
      toml := fs.content toml
      indent := ns.indent
      keep_full_version := ns.keep_full_version
      max_supported_python := ns.max_supported_python }

deriving instance DecidableEq for Except

/-- Translation of `pyproject_toml_path_creator`: absolutise the argument,
descend into a directory, then check existence, regular-file status, and
read/write permission in that order, failing with `ArgumentTypeError`
messages. -/
def pyproject_toml_path_creator (fs : FileSystem) (cwd argument : String) :
    Except String String :=
  let path := absolutePath cwd argument
  let path := if fs.isDir path then path ++ "/pyproject.toml" else path
  if ¬ fs.pathExists path then .error "path does not exist"
  else if ¬ fs.isFile path then .error "path is not a file"
  else if ¬ fs.readable path then .error "cannot read path"
  else if ¬ fs.writable path then .error "cannot write path"
  else .ok path

/-- State accumulated by the argument scan: the five option values (at their
`argparse` defaults) and the raw positional arguments in order. -/
structure ScanState where
  stdout : Bool := false
  check : Bool := false
  keep_full_version : Bool := false
  indent : Int := DEFAULT_INDENT
  max_supported_python : PyVersion := DEFAULT_MAX_SUPPORTED_PYTHON
  positionals : List String := []
  deriving DecidableEq, Repr

/-- Outcome of scanning the argument tokens. -/
inductive ScanResult where
  | done (st : ScanState)
  | fail (msg : String)
  | versionExit
  | helpExit
  deriving DecidableEq, Repr

/-- Does this character list match `\d*\.\d+` — optional digits, one dot,
then at least one digit?  The tail of `argparse`'s decimal negative-number
form. -/
def digitsDotTail : List Char → Bool
  | [] => false
  | '.' :: fs => !fs.isEmpty && fs.all isDig
  | c :: cs => isDig c && digitsDotTail cs

/-- Does a token match `argparse`'s negative-number pattern
(`^-\d+$|^-\d*\.\d+$`)?  Such tokens are treated as values, not options,
because this parser has no numeric-looking option strings. -/
def isNegNumberTok (t : String) : Bool :=
  match t.data with
  | '-' :: c :: cs => (c :: cs).all isDig || digitsDotTail (c :: cs)
  | _ => false

/-- Does `argparse` classify this token as an option string (leading dash,
more than the bare dash, and not a negative number)? -/
def looksLikeOption (t : String) : Bool :=
  match t.data with
  | '-' :: _ :: _ => !(isNegNumberTok t)
  | _ => false

/-- Structural prefix test on character lists (kernel-reducible, unlike
the byte-position loop behind `String.startsWith`). -/
def listPre : List Char → List Char → Bool
  | [], _ => true
  | _ :: _, [] => false
  | a :: as, b :: bs => if a = b then listPre as bs else false

/-- Split a token's characters at the first `=`, as `argparse` splits
`--opt=value`: the part before, whether an `=` occurred, and the part
after. -/
def splitAtEq : List Char → List Char × Bool × List Char
  | [] => ([], false, [])
  | '=' :: cs => ([], true, cs)
  | c :: cs =>
      let r := splitAtEq cs
      (c :: r.1, r.2.1, r.2.2)

/-- The token's part before any `=` — what `argparse` matches against the
option strings. -/
def tokStem (t : String) : List Char := (splitAtEq t.data).1

/-- Does the token carry an explicit `=value`? -/
def hasEqTok (t : String) : Bool := (splitAtEq t.data).2.1

/-- The explicit value after the first `=` of the token. -/
def eqVal (t : String) : String := ⟨(splitAtEq t.data).2.2⟩

/-- The long option strings of the parser built by `_build_cli`, including
the `--help` and `--version` options the parser itself carries. -/
def longOpts : List String :=
  ["--help", "--version", "--stdout", "--check", "--keep-full-version",
   "--indent", "--max-supported-python"]

/-- `argparse` long-option lookup with `allow_abbrev` (the default, as
`_build_cli` does not disable it): a `--`-led token resolves to the unique
long option string that its stem (the part before any `=`) prefix-matches.
No candidate is an unrecognized option; several candidates would be an
ambiguous abbreviation, which is unreachable for this parser because its
long options start with pairwise distinct letters — for the same reason
`argparse`'s exact-match-first step needs no separate case here. -/
def resolveLong (t : String) : Option String :=
  match t.data with
  | '-' :: '-' :: _ :: _ =>
      match longOpts.filter (fun o => listPre (tokStem t) o.data) with
      | [o] => some o
      | _ => none
  | _ => none

/-- A single-dash concatenation of `s` short flags (`-s`, `-ss`, …): the
only short-option chains of this parser that `argparse` can process to
completion without exiting, each step setting stdout. -/
def isSChain (t : String) : Bool :=
  match t.data with
  | '-' :: c :: cs => (c :: cs).all (fun x => x == 's')
  | _ => false

/-- Does `argparse` resolve this token to the stdout action: one of
the `-s`/`-ss…` chains, or a token whose stem abbreviates `--stdout`
(`--s`, `--st`, …, `--stdout`, possibly with `=value`)? -/
def resolvesStdout (t : String) : Bool :=
  isSChain t || (resolveLong t == some "--stdout")

/-- Does `argparse` resolve this token to the `--check` action: a token
whose stem abbreviates `--check`? -/
def resolvesCheck (t : String) : Bool :=
  resolveLong t == some "--check"

/-- The tokens before the first `--` separator — the only positions where
a token can be processed as an option. -/
def beforeDD : List String → List String
  | [] => []
  | t :: rest => if t = "--" then [] else t :: beforeDD rest

/-- How `argparse` classifies one token against the option strings of the
parser built by `_build_cli`.  `flagEq` is a zero-argument option given an
explicit `=value` — an ignored-explicit-argument error. -/
inductive TokKind where
  | dashdash
  | stdoutTok
  | checkTok
  | keepTok
  | versionTok
  | helpTok
  | indentTok
  | indentEq
  | mspTok
  | mspEq
  | flagEq
  | badOption
  | plain
  deriving DecidableEq, Repr

/-- Classify a token resolved to the long option `o`: its own kind when
given plainly, the `=value` kinds for the two value options, and the
ignored-explicit-argument error for a zero-argument option with
`=value`. -/
def classifyLong (o : String) (he : Bool) : TokKind :=
  if he then
    if o = "--indent" then .indentEq
    else if o = "--max-supported-python" then .mspEq
    else .flagEq
  else
    if o = "--stdout" then .stdoutTok
    else if o = "--check" then .checkTok
    else if o = "--keep-full-version" then .keepTok
    else if o = "--version" then .versionTok
    else if o = "--help" then .helpTok
    else if o = "--indent" then .indentTok
    else .mspTok

/-- Classify a token that resolves to no long option: the exact short
options, the `-ss…` chains, other option-like tokens as unrecognized, and
everything else as a positional value. -/
def classifyShort (t : String) : TokKind :=
  if t = "-s" then .stdoutTok
  else if t = "-V" then .versionTok
  else if t = "-h" then .helpTok
  else if isSChain t then .stdoutTok
  else if looksLikeOption t then .badOption
  else .plain

/-- Classify one token as `argparse` does against this parser: the `--`
separator, long options resolved with `allow_abbrev` (exact strings and
unambiguous abbreviations, with their `=value` forms), and the short-option
and positional cases of `classifyShort`. -/
def classifyTok (t : String) : TokKind :=
  if t = "--" then .dashdash
  else
    match resolveLong t with
    | some o => classifyLong o (hasEqTok t)
    | none => classifyShort t

/-- The label `argparse` prints for a resolved option in its error
messages. -/
def flagLabel (t : String) : String :=
  match resolveLong t with
  | some "--stdout" => "-s/--stdout"
  | some "--version" => "-V/--version"
  | some "--help" => "-h/--help"
  | some o => o
  | none => t

/-- Model of `ArgumentParser.parse_args` token scanning for the exact
parser of `_build_cli`: store-true flags with the stdout/check
mutual-exclusion group, long-option abbreviation (`allow_abbrev`), the two
value options (space- and `=`-separated forms), `--` positional demotion,
and the version and help actions.  Deviations from `argparse` kept
deliberately: positionals are collected during the scan and type-converted
afterwards, so when several arguments are invalid the reported message may
be the one `argparse` would have raised later; values in messages are not
quoted; mixed short-option concatenations (such as `-sV`, which `argparse`
expands and then version-exits) and option-like tokens containing a space
(which `argparse` demotes to positionals) fail as unrecognized tokens —
none of these can yield a parsed namespace either way; every failing input
still fails here and vice versa. -/
def scanArgs (st : ScanState) (dd : Bool) : List String → ScanResult
  | [] => .done st
  | t :: rest =>
    if dd then scanArgs { st with positionals := st.positionals ++ [t] } dd rest
    else
      match classifyTok t with
      | .dashdash => scanArgs st true rest
      | .stdoutTok =>
        if st.check then .fail "argument -s/--stdout: not allowed with argument --check"
        else scanArgs { st with stdout := true } dd rest
      | .checkTok =>
        if st.stdout then .fail "argument --check: not allowed with argument -s/--stdout"
        else scanArgs { st with check := true } dd rest
      | .keepTok => scanArgs { st with keep_full_version := true } dd rest
      | .versionTok => .versionExit
      | .helpTok => .helpExit
      | .indentTok =>
        match rest with
        | [] => .fail "argument --indent: expected one argument"
        | v :: rest2 =>
          if looksLikeOption v then .fail "argument --indent: expected one argument"
          else
            match python_int v with
            | some n => scanArgs { st with indent := n } dd rest2
            | none => .fail ("argument --indent: invalid int value: " ++ v)
      | .indentEq =>
        match python_int (eqVal t) with
        | some n => scanArgs { st with indent := n } dd rest
        | none => .fail ("argument --indent: invalid int value: " ++ eqVal t)
      | .mspTok =>
        match rest with
        | [] => .fail "argument --max-supported-python: expected one argument"
        | v :: rest2 =>
          if looksLikeOption v then
            .fail "argument --max-supported-python: expected one argument"
          else
            match python_Version v with
            | some ver => scanArgs { st with max_supported_python := ver } dd rest2
            | none => .fail ("argument --max-supported-python: invalid Version value: " ++ v)
      | .mspEq =>
        match python_Version (eqVal t) with
        | some ver => scanArgs { st with max_supported_python := ver } dd rest
        | none => .fail ("argument --max-supported-python: invalid Version value: " ++ eqVal t)
      | .flagEq =>
        .fail ("argument " ++ flagLabel t ++ ": ignored explicit argument " ++ eqVal t)
      | .badOption => .fail ("unrecognized arguments: " ++ t)
      | .plain => scanArgs { st with positionals := st.positionals ++ [t] } dd rest

/-- Convert the raw positional arguments through
`pyproject_toml_path_creator`, stopping at the first failure, as `argparse`
does when converting the `inputs` values. -/
def convertInputs (fs : FileSystem) (cwd : String) :
    List String → Except String (List String)
  | [] => .ok []
  | a :: rest =>
    match pyproject_toml_path_creator fs cwd a with
    | .error e => .error e
    | .ok p =>
      match convertInputs fs cwd rest with
      | .error e => .error e
      | .ok ps => .ok (p :: ps)

/-- Result of `cli_args`: a parsed namespace, a parse error (`argparse`
exits with status 2 after printing the message), or the exit of the `-V`
version or `-h` help action. -/
inductive CliResult where
  | ok (ns : PyProjectFmtNamespace)
  | error (msg : String)
  | versionExit
  | helpExit
  deriving DecidableEq, Repr

/-- Translation of `cli_args`: scan the tokens with the parser built by
`_build_cli`, require at least one positional (`nargs="+"`), convert each
input path, and assemble the namespace. -/
def cli_args (fs : FileSystem) (cwd : String) (args : List String) : CliResult :=
  match scanArgs {} false args with
  | .fail e => .error e
  | .versionExit => .versionExit
  | .helpExit => .helpExit
  | .done st =>
    if st.positionals = [] then
      .error "the following arguments are required: inputs"
    else
      match convertInputs fs cwd st.positionals with
      | .error e => .error ("argument inputs: " ++ e)
      | .ok paths =>
        .ok { inputs := paths
              stdout := st.stdout
              check := st.check
              indent := st.indent
              keep_full_version := st.keep_full_version
              max_supported_python := st.max_supported_python }

/-!
Modelled from the spec: the formatting engine (Document Model, Table
Reorderer, Dependency Normalizer, Format Orchestrator of spec sections
3-4) is the Rust core of the repository and is not among the translated
sources.  It is modelled here at line granularity: a document text is a
list of physical lines, dependency strings appear in their parsed
(`DependencySpec`) or unparsable-verbatim form, and `format` is the
parse → reorder → normalize → serialize pipeline with the changed flag.
-/

/-- Modelled from the spec: ASCII lowercasing used by package-name
canonicalisation ("canonicalize the package name casing"). -/
def lowerChar (c : Char) : Char :=
  match c with
  | 'A' => 'a' | 'B' => 'b' | 'C' => 'c' | 'D' => 'd' | 'E' => 'e' | 'F' => 'f'
  | 'G' => 'g' | 'H' => 'h' | 'I' => 'i' | 'J' => 'j' | 'K' => 'k' | 'L' => 'l'
  | 'M' => 'm' | 'N' => 'n' | 'O' => 'o' | 'P' => 'p' | 'Q' => 'q' | 'R' => 'r'
  | 'S' => 's' | 'T' => 't' | 'U' => 'u' | 'V' => 'v' | 'W' => 'w' | 'X' => 'x'
  | 'Y' => 'y' | 'Z' => 'z' | c => c

/-- Modelled from the spec: package-name character canonicalisation —
separators `_` and `.` become `-`, letters are lowercased ("separator style
... no semantic change, formatting only"). -/
def canonChar (c : Char) : Char :=
  if c = '_' ∨ c = '.' then '-' else lowerChar c

/-- Modelled from the spec: package-name canonicalisation, characterwise. -/
def canonName (s : String) : String :=
  ⟨s.data.map canonChar⟩

/-- Lexicographic strict order on character lists (kernel-reducible, unlike
`String.ltb`). -/
def lexLt : List Char → List Char → Bool
  | [], [] => false
  | [], _ :: _ => true
  | _ :: _, [] => false
  | a :: as, b :: bs =>
      if a < b then true else if b < a then false else lexLt as bs

/-- Alphabetical strict order on strings, over their character data. -/
def strLt (a b : String) : Bool := lexLt a.data b.data

/-- Insert a string into a sorted list, skipping duplicates — one step of
the extras normalisation ("sort extras alphabetically, deduplicated"). -/
def insExtra (x : String) : List String → List String
  | [] => [x]
  | y :: ys =>
      if x = y then y :: ys
      else if strLt x y then x :: y :: ys
      else y :: insExtra x ys

/-- Modelled from the spec: sort the extras alphabetically and remove
duplicates (Dependency Normalizer step 3). -/
def sortExtras (l : List String) : List String := l.foldr insExtra []

/-- Drop trailing zero components of a release-number sequence. -/
def dropTrailZeros (l : List Nat) : List Nat :=
  (l.reverse.dropWhile (fun n => n == 0)).reverse

/-- Modelled from the spec: trailing-zero trimming of a release sequence,
always retaining at least one component (`1.0.0` → `1`, `0.0.0` → `0`,
`1.0.1` unchanged). -/
def trimRelease (r : List Nat) : List Nat :=
  if dropTrailZeros r = [] then r.take 1 else dropTrailZeros r

/-- Modelled from the spec: a single version constraint of a dependency —
an operator (`==`, `>=`, `~=`, ...), the numeric release components, and the
pre/post/dev suffix preserved verbatim. -/
structure VerConstraint where
  op : String
  release : List Nat
  suffix : String
  deriving DecidableEq, Repr

/-- Modelled from the spec: per-constraint normalisation — when
`keep_full_version` is false the release is trimmed; the operator and the
suffix are never altered. -/
def trimConstraint (keep_full_version : Bool) (c : VerConstraint) : VerConstraint :=
  if keep_full_version then c else { c with release := trimRelease c.release }

/-- Modelled from the spec: one element of a dependency array — either a
parsed `DependencySpec` (name, extras, version constraints, optional
environment marker) or a string the dependency parser could not decompose,
kept verbatim (`InvalidSpecifierError` is non-fatal). -/
inductive Dep where
  | depSpec (name : String) (extras : List String)
      (constraints : List VerConstraint) (marker : Option String)
  | verbatim (s : String)
  deriving DecidableEq, Repr

/-- Modelled from the spec: Dependency Normalizer on one array element —
canonical name, sorted deduplicated extras, trimmed constraints, marker
preserved; unparsable elements pass through unchanged. -/
def normalizeDep (keep_full_version : Bool) : Dep → Dep
  | .depSpec n ex cs m =>
      .depSpec (canonName n) (sortExtras ex)
        (cs.map (trimConstraint keep_full_version)) m
  | .verbatim s => .verbatim s

/-- Modelled from the spec: a value of a document entry — a scalar string
or a dependency array. -/
inductive Value where
  | str (s : String)
  | deps (l : List Dep)
  deriving DecidableEq, Repr

/-- Modelled from the spec: one key/value pair of a table. -/
structure Entry where
  key : String
  value : Value
  deriving DecidableEq, Repr

/-- Modelled from the spec: a named table with its ordered entries. -/
structure Table where
  name : String
  entries : List Entry
  deriving DecidableEq, Repr

/-- Modelled from the spec: a document is the ordered list of its tables. -/
abbrev Document := List Table

/-- Modelled from the spec: the fixed canonical sequence of known top-level
tables — project metadata first, build system second, tool blocks after. -/
def canonicalTableOrder : List String :=
  ["project", "build-system", "dependency-groups", "tool"]

/-- Modelled from the spec: the canonical key order inside known tables. -/
def canonicalKeyOrder : List String :=
  ["name", "version", "description", "requires-python", "dependencies",
   "optional-dependencies", "requires", "build-backend"]

/-- Pull the elements whose key matches each name of `ord`, in canonical
rank order, keeping the original relative order inside each rank. -/
def pullKnown (key : α → String) (ord : List String) (l : List α) : List α :=
  match ord with
  | [] => []
  | n :: rest => l.filter (fun x => key x == n) ++ pullKnown key rest l

/-- Modelled from the spec: stable partition-and-concatenate reordering —
known keys sorted by canonical rank, unknown keys appended by original
index (spec section 9). -/
def reorderBy (key : α → String) (ord : List String) (l : List α) : List α :=
  pullKnown key ord l ++ l.filter (fun x => !(ord.contains (key x)))

/-- Modelled from the spec: entry normalisation — dependency arrays are
rewritten elementwise (their order preserved), scalar entries untouched. -/
def normalizeEntry (keep_full_version : Bool) (e : Entry) : Entry :=
  match e.value with
  | .str _ => e
  | .deps l => { e with value := .deps (l.map (normalizeDep keep_full_version)) }

/-- Modelled from the spec: table normalisation — canonical key order for
known tables (unknown keys appended in original order), then entrywise
dependency normalisation; unknown tables keep their internal key order. -/
def normalizeTable (keep_full_version : Bool) (t : Table) : Table :=
  if canonicalTableOrder.contains t.name then
    ⟨t.name, (reorderBy Entry.key canonicalKeyOrder t.entries).map
      (normalizeEntry keep_full_version)⟩
  else ⟨t.name, t.entries.map (normalizeEntry keep_full_version)⟩

/-- Engine-relevant configuration: indent width and trailing-zero-trimming
opt-out.  The classifier expansion driven by `max_supported_python` is
beyond the line-level model. -/
structure FmtConfig where
  indent : Nat := 2
  keep_full_version : Bool := false
  deriving DecidableEq, Repr

/-- Modelled from the spec: document normalisation — tables into canonical
order (unrecognised tables last, original relative order), each table
normalised. -/
def normalizeDoc (cfg : FmtConfig) (d : Document) : Document :=
  reorderBy Table.name canonicalTableOrder
    (d.map (normalizeTable cfg.keep_full_version))

/-- Modelled from the spec: one physical line of the document text — a
table header, a scalar assignment, a one-line dependency array, or the
opening line, one per-element line (at its indent), and closing line of a
multi-line dependency array. -/
inductive DocLine where
  | header (name : String)
  | kvStr (key v : String)
  | arrInline (key : String) (elems : List Dep)
  | arrOpen (key : String)
  | arrElem (ind : Nat) (d : Dep)
  | arrClose
  deriving DecidableEq, Repr

/-- A logical line after multi-line arrays have been regrouped: a header or
a whole entry. -/
inductive LLine where
  | header (name : String)
  | entry (e : Entry)
  deriving DecidableEq, Repr

/-- Modelled from the spec: render one entry — arrays with at most one
element stay on one line, longer arrays get one element per line at the
configured indent with opening and closing lines (Array Pretty-Printer). -/
def renderEntry (indent : Nat) (e : Entry) : List DocLine :=
  match e.value with
  | .str v => [.kvStr e.key v]
  | .deps l =>
      if l.length ≤ 1 then [.arrInline e.key l]
      else .arrOpen e.key :: l.map (.arrElem indent) ++ [.arrClose]

/-- Render the entries of a table in order. -/
def renderEntries (indent : Nat) (es : List Entry) : List DocLine :=
  es.foldr (fun e acc => renderEntry indent e ++ acc) []

/-- Modelled from the spec: serialize a document — each table as its header
line followed by its rendered entries. -/
def serializeDoc (indent : Nat) (d : Document) : List DocLine :=
  d.foldr (fun t acc => (.header t.name :: renderEntries indent t.entries) ++ acc) []

/-- Regroup multi-line arrays into logical lines.  The first argument holds
the key and the elements collected so far when scanning inside an open
array.  Fails on stray element/closing lines or an unclosed array. -/
def groupArrays : Option (String × List Dep) → List DocLine → Option (List LLine)
  | none, [] => some []
  | none, .header n :: rest => (groupArrays none rest).map (.header n :: ·)
  | none, .kvStr k v :: rest =>
      (groupArrays none rest).map (.entry ⟨k, .str v⟩ :: ·)
  | none, .arrInline k l :: rest =>
      (groupArrays none rest).map (.entry ⟨k, .deps l⟩ :: ·)
  | none, .arrOpen k :: rest => groupArrays (some (k, [])) rest
  | none, .arrElem _ _ :: _ => none
  | none, .arrClose :: _ => none
  | some _, [] => none
  | some (k, acc), .arrElem _ d :: rest => groupArrays (some (k, acc ++ [d])) rest
  | some (k, acc), .arrClose :: rest =>
      (groupArrays none rest).map (.entry ⟨k, .deps acc⟩ :: ·)
  | some _, _ :: _ => none

/-- Group logical lines into tables: collect entries for the current table
`n` until the next header or the end of the text. -/
def groupTablesIn (n : String) (acc : List Entry) : List LLine → Option Document
  | [] => some [⟨n, acc⟩]
  | .header m :: rest => (groupTablesIn m [] rest).map (⟨n, acc⟩ :: ·)
  | .entry e :: rest => groupTablesIn n (acc ++ [e]) rest

/-- Group logical lines into a document: the text must open with a table
header (or be empty); an entry line before any header is malformed. -/
def groupTables : List LLine → Option Document
  | [] => some []
  | .header n :: rest => groupTablesIn n [] rest
  | .entry _ :: _ => none

/-- Modelled from the spec: `parse(text) -> Document | ParseError`, at line
granularity. -/
def parseDoc (text : List DocLine) : Option Document :=
  (groupArrays none text).bind groupTables

/-- Modelled from the spec: the Format Orchestrator —
`format(text, Config) -> (output_text, changed)`, failing on malformed
input; `changed` is true iff the output differs from the input. -/
def format (cfg : FmtConfig) (text : List DocLine) :
    Option (List DocLine × Bool) :=
  (parseDoc text).map fun d =>
    let out := serializeDoc cfg.indent (normalizeDoc cfg d)
    (out, decide (out ≠ text))

/-- What a completed scan guarantees: the stdout/check mutual-exclusion
invariant is preserved, and each of the two flags can only have been raised
by a token of the remaining arguments classified as that flag's own
option. -/
def ScanProp (st : ScanState) (args : List String) (st2 : ScanState) : Prop :=
  ((st.stdout = true → st.check = false) → st2.stdout = true → st2.check = false) ∧
  (st2.stdout = true → st.stdout = true ∨ ∃ t ∈ args, classifyTok t = .stdoutTok) ∧
  (st2.check = true → st.check = true ∨ ∃ t ∈ args, classifyTok t = .checkTok)

/-- What a completed scan guarantees about the option-position tokens (the
ones before any `--`): a stdout- or check-classified token forces the
corresponding final flag, and no ignored-explicit-argument token can have
been processed. -/
def TokProp (dd : Bool) (args : List String) (st2 : ScanState) : Prop :=
  dd = false →
    (∀ t ∈ beforeDD args, classifyTok t = .stdoutTok → st2.stdout = true) ∧
    (∀ t ∈ beforeDD args, classifyTok t = .checkTok → st2.check = true) ∧
    (∀ t ∈ beforeDD args, classifyTok t ≠ .flagEq)

/-- The path actually checked by the validator: the absolutised argument,
with the default file name appended when it names a directory. -/
def resolvedPath (fs : FileSystem) (cwd a : String) : String :=
  if fs.isDir (absolutePath cwd a) then absolutePath cwd a ++ "/pyproject.toml"
  else absolutePath cwd a

/-- The lowercase ASCII letters. -/
def lcLetters : List Char :=
  ['a', 'b', 'c', 'd', 'e', 'f', 'g', 'h', 'i', 'j', 'k', 'l', 'm',
   'n', 'o', 'p', 'q', 'r', 's', 't', 'u', 'v', 'w', 'x', 'y', 'z']

/-- Flatten a document into logical lines: each table as a header followed
by its entries. -/
def flattenDoc (d : Document) : List LLine :=
  d.foldr (fun t acc => .header t.name :: t.entries.map .entry ++ acc) []

/-- Modelled from the spec: parse a plain dotted release string
(`NUM(.NUM)*`) into its numeric components; anything else is not a plain
release. -/
def parseReleaseStr (s : String) : Option (List Nat) :=
  let d0 := s.data.takeWhile isDig
  let r0 := s.data.dropWhile isDig
  if d0 = [] then none
  else
    let (rel, rest) := parseRelMore r0.length [digitsToNat d0] r0
    if rest = [] then some rel else none

/-- Decimal digits of a natural number, most significant first (fuel-based
so the definition stays kernel-reducible). -/
def natDigsAux : Nat → Nat → List Char
  | 0, _ => []
  | fuel + 1, n =>
      if n < 10 then [Nat.digitChar n]
      else natDigsAux fuel (n / 10) ++ [Nat.digitChar (n % 10)]

/-- Decimal rendering of a natural number. -/
def natToStr (n : Nat) : String := ⟨natDigsAux (n + 1) n⟩

/-- Render release components back to a dotted string. -/
def showRelease : List Nat → String
  | [] => ""
  | [n] => natToStr n
  | n :: rest => natToStr n ++ "." ++ showRelease rest

/-- Modelled from the spec: version trimming as it acts on a version
constraint's release string — when `keep_full_version` is false, the
trailing zero components of a plain release string are trimmed (down to one
component); with `keep_full_version` true, or for a string that is not a
plain release, the string is untouched. -/
def trimVersionStr (keep_full_version : Bool) (s : String) : String :=
  if keep_full_version then s
  else
    match parseReleaseStr s with
    | some rel => showRelease (trimRelease rel)
    | none => s

/-- Concrete filesystem fixture: a single regular file `/w/ok`, readable
and writable. -/
def fsEx : FileSystem :=
  { pathExists := fun p => p == "/w/ok"
    isDir := fun _ => false
    isFile := fun p => p == "/w/ok"
    readable := fun p => p == "/w/ok"
    writable := fun p => p == "/w/ok"
    content := fun _ => "x" }

/-- Concrete filesystem fixture: a directory `/w/proj` containing a
readable and writable regular file `pyproject.toml`. -/
def fsDir : FileSystem :=
  { pathExists := fun p => p == "/w/proj" || p == "/w/proj/pyproject.toml"
    isDir := fun p => p == "/w/proj"
    isFile := fun p => p == "/w/proj/pyproject.toml"
    readable := fun p => p == "/w/proj/pyproject.toml"
    writable := fun p => p == "/w/proj/pyproject.toml"
    content := fun _ => "x" }

/-- The namespace produced by a default-options run on `/w/ok`. -/
def nsEx : PyProjectFmtNamespace :=
  { inputs := ["/w/ok"]
    stdout := false
    check := false
    indent := 2
    keep_full_version := false
    max_supported_python := ⟨0, [3, 13], []⟩ }

/-- Concrete document-text fixture: an unnormalised two-table document with
a multi-line dependency array. -/
def textEx : List DocLine :=
  [.header "tool", .kvStr "a" "1",
   .header "project", .kvStr "name" "Foo_Bar",
   .arrOpen "dependencies",
   .arrElem 4 (.depSpec "A_pkg" ["b", "a"] [⟨"==", [1, 0, 0], ""⟩] none),
   .arrElem 4 (.verbatim "oops ???"),
   .arrClose]

/-- The canonical form of `textEx` under the default configuration. -/
def outEx : List DocLine :=
  [.header "project", .kvStr "name" "Foo_Bar",
   .arrOpen "dependencies",
   .arrElem 2 (.depSpec "a-pkg" ["a", "b"] [⟨"==", [1], ""⟩] none),
   .arrElem 2 (.verbatim "oops ???"),
   .arrClose,
   .header "tool", .kvStr "a" "1"]

/-! Properties of the argument scan. -/

/-- A token the resolver maps to a long option is option-like: it starts
with two dashes and is no negative number. -/
theorem resolveLong_isOption {t o : String} (h : resolveLong t = some o) :
    looksLikeOption t = true := by
  unfold resolveLong at h
  split at h
  · rename_i x xs heq
    have hneg : isNegNumberTok t = false := by
      unfold isNegNumberTok
      rw [heq]
      rfl
    unfold looksLikeOption
    rw [heq, hneg]
    rfl
  · exact Option.noConfusion h

/-- An `-ss…` chain resolves to no long option, is option-like, and is not
the `--` separator. -/
theorem sChain_props {t : String} (h : isSChain t = true) :
    resolveLong t = none ∧ looksLikeOption t = true ∧ t ≠ "--" := by
  unfold isSChain at h
  split at h
  · rename_i c cs heq
    have hc : c = 's' :=
      of_decide_eq_true (List.all_eq_true.mp h c (List.mem_cons_self c cs))
    subst hc
    have hneg : isNegNumberTok t = false := by
      unfold isNegNumberTok
      rw [heq]
      rfl
    refine ⟨?_, ?_, ?_⟩
    · unfold resolveLong
      rw [heq]
      rfl
    · unfold looksLikeOption
      rw [heq, hneg]
      rfl
    · intro he
      rw [he] at heq
      have h2 : ('-' :: '-' :: [] : List Char) = '-' :: 's' :: cs := heq
      injection h2 with h3 h4
      injection h4 with h5 h6
      exact absurd h5 (by decide)
  · exact Bool.noConfusion h

/-- Reduce `classifyTok` when the token resolves to a long option. -/
theorem classifyTok_eq_long {t o : String} (hrl : resolveLong t = some o) :
    classifyTok t = classifyLong o (hasEqTok t) := by
  have hne : t ≠ "--" := by
    intro he
    rw [he] at hrl
    exact Option.noConfusion ((by decide : resolveLong "--" = none).symm.trans hrl)
  unfold classifyTok
  rw [if_neg hne, hrl]

/-- Reduce `classifyTok` when the token resolves to no long option. -/
theorem classifyTok_eq_short {t : String} (hne : t ≠ "--")
    (hrl : resolveLong t = none) : classifyTok t = classifyShort t := by
  unfold classifyTok
  rw [if_neg hne, hrl]

/-- Only the `--` separator is classified as such. -/
theorem classifyTok_dashdash {t : String} (h : classifyTok t = .dashdash) :
    t = "--" := by
  by_cases ht : t = "--"
  · exact ht
  · exfalso
    cases hrl : resolveLong t with
    | some o =>
        rw [classifyTok_eq_long hrl] at h
        unfold classifyLong at h
        repeat' split at h
        all_goals exact TokKind.noConfusion h
    | none =>
        rw [classifyTok_eq_short ht hrl] at h
        unfold classifyShort at h
        repeat' split at h
        all_goals exact TokKind.noConfusion h

/-- A token that is not option-like is a positional value. -/
theorem classify_not_option {t : String} (h : looksLikeOption t = false) :
    classifyTok t = .plain := by
  by_cases ht : t = "--"
  · subst ht
    exact absurd h (by decide)
  · cases hrl : resolveLong t with
    | some o =>
        have h2 := resolveLong_isOption hrl
        rw [h] at h2
        exact Bool.noConfusion h2
    | none =>
        have h1 : t ≠ "-s" := by
          intro he
          subst he
          exact absurd h (by decide)
        have h2 : t ≠ "-V" := by
          intro he
          subst he
          exact absurd h (by decide)
        have h3 : t ≠ "-h" := by
          intro he
          subst he
          exact absurd h (by decide)
        have h4 : ¬isSChain t = true := by
          intro hx
          have h5 := (sChain_props hx).2.1
          rw [h] at h5
          exact Bool.noConfusion h5
        have h6 : ¬looksLikeOption t = true := by
          intro hx
          rw [h] at hx
          exact Bool.noConfusion hx
        rw [classifyTok_eq_short ht hrl]
        unfold classifyShort
        rw [if_neg h1, if_neg h2, if_neg h3, if_neg h4, if_neg h6]

/-- A token classified as the stdout flag really resolves to
the stdout option. -/
theorem classify_stdout_resolves {t : String} (h : classifyTok t = .stdoutTok) :
    resolvesStdout t = true := by
  by_cases ht : t = "--"
  · subst ht
    exact absurd h (by decide)
  · cases hrl : resolveLong t with
    | some o =>
        rw [classifyTok_eq_long hrl] at h
        unfold classifyLong at h
        by_cases he : hasEqTok t = true
        · rw [if_pos he] at h
          repeat' split at h
          all_goals exact TokKind.noConfusion h
        · rw [if_neg he] at h
          by_cases ho : o = "--stdout"
          · unfold resolvesStdout
            rw [hrl, ho, beq_self_eq_true, Bool.or_true]
          · rw [if_neg ho] at h
            repeat' split at h
            all_goals exact TokKind.noConfusion h
    | none =>
        rw [classifyTok_eq_short ht hrl] at h
        unfold classifyShort at h
        by_cases h1 : t = "-s"
        · subst h1
          decide
        · rw [if_neg h1] at h
          by_cases h2 : t = "-V"
          · rw [if_pos h2] at h
            exact TokKind.noConfusion h
          · rw [if_neg h2] at h
            by_cases h3 : t = "-h"
            · rw [if_pos h3] at h
              exact TokKind.noConfusion h
            · rw [if_neg h3] at h
              by_cases h4 : isSChain t = true
              · unfold resolvesStdout
                rw [h4, Bool.true_or]
              · rw [if_neg h4] at h
                by_cases h5 : looksLikeOption t = true
                · rw [if_pos h5] at h
                  exact TokKind.noConfusion h
                · rw [if_neg h5] at h
                  exact TokKind.noConfusion h

/-- A token classified as the check flag really resolves to `--check`. -/
theorem classify_check_resolves {t : String} (h : classifyTok t = .checkTok) :
    resolvesCheck t = true := by
  by_cases ht : t = "--"
  · subst ht
    exact absurd h (by decide)
  · cases hrl : resolveLong t with
    | some o =>
        rw [classifyTok_eq_long hrl] at h
        unfold classifyLong at h
        by_cases he : hasEqTok t = true
        · rw [if_pos he] at h
          repeat' split at h
          all_goals exact TokKind.noConfusion h
        · rw [if_neg he] at h
          by_cases ho : o = "--stdout"
          · rw [if_pos ho] at h
            exact TokKind.noConfusion h
          · rw [if_neg ho] at h
            by_cases ho2 : o = "--check"
            · unfold resolvesCheck
              rw [hrl, ho2, beq_self_eq_true]
            · rw [if_neg ho2] at h
              repeat' split at h
              all_goals exact TokKind.noConfusion h
    | none =>
        rw [classifyTok_eq_short ht hrl] at h
        unfold classifyShort at h
        repeat' split at h
        all_goals exact TokKind.noConfusion h

/-- A token resolving to the stdout option is classified as the stdout flag or
as an ignored-explicit-argument error. -/
theorem resolvesStdout_classify {t : String} (h : resolvesStdout t = true) :
    classifyTok t = .stdoutTok ∨ classifyTok t = .flagEq := by
  unfold resolvesStdout at h
  by_cases hs : isSChain t = true
  case neg =>
    have hs2 : isSChain t = false := by
      cases hx : isSChain t
      · rfl
      · exact absurd hx hs
    rw [hs2, Bool.false_or] at h
    have hrl : resolveLong t = some "--stdout" := eq_of_beq h
    rw [classifyTok_eq_long hrl]
    unfold classifyLong
    by_cases he : hasEqTok t = true
    · rw [if_pos he, if_neg (by decide), if_neg (by decide)]
      exact Or.inr rfl
    · rw [if_neg he, if_pos rfl]
      exact Or.inl rfl
  case pos =>
    obtain ⟨hrl, _, hne⟩ := sChain_props hs
    rw [classifyTok_eq_short hne hrl]
    unfold classifyShort
    by_cases h1 : t = "-s"
    · rw [if_pos h1]
      exact Or.inl rfl
    · rw [if_neg h1]
      by_cases h2 : t = "-V"
      · subst h2
        exact absurd hs (by decide)
      · rw [if_neg h2]
        by_cases h3 : t = "-h"
        · subst h3
          exact absurd hs (by decide)
        · rw [if_neg h3, if_pos hs]
          exact Or.inl rfl

/-- A token resolving to `--check` is classified as the check flag or as an
ignored-explicit-argument error. -/
theorem resolvesCheck_classify {t : String} (h : resolvesCheck t = true) :
    classifyTok t = .checkTok ∨ classifyTok t = .flagEq := by
  have hrl : resolveLong t = some "--check" := eq_of_beq h
  rw [classifyTok_eq_long hrl]
  unfold classifyLong
  by_cases he : hasEqTok t = true
  · rw [if_pos he, if_neg (by decide), if_neg (by decide)]
    exact Or.inr rfl
  · rw [if_neg he, if_neg (by decide), if_pos rfl]
    exact Or.inl rfl

/-- The defining equation of `beforeDD` on a non-empty list. -/
theorem beforeDD_cons (t : String) (rest : List String) :
    beforeDD (t :: rest) = if t = "--" then [] else t :: beforeDD rest := rfl

theorem scanProp_tail {st stm st2 : ScanState} {t : String} {rest : List String}
    (hP : ScanProp stm rest st2) (hso : stm.stdout = st.stdout)
    (hch : stm.check = st.check) : ScanProp st (t :: rest) st2 := by
  obtain ⟨p1, p2, p3⟩ := hP
  refine ⟨?_, ?_, ?_⟩
  · intro hpre
    exact p1 (by rw [hso, hch]; exact hpre)
  · intro hx
    rcases p2 hx with h | ⟨u, hu, hcu⟩
    · exact Or.inl (hso ▸ h)
    · exact Or.inr ⟨u, List.mem_cons_of_mem t hu, hcu⟩
  · intro hx
    rcases p3 hx with h | ⟨u, hu, hcu⟩
    · exact Or.inl (hch ▸ h)
    · exact Or.inr ⟨u, List.mem_cons_of_mem t hu, hcu⟩

theorem scanProp_set_stdout {st st2 : ScanState} {v : String} {rest : List String}
    (hv : classifyTok v = .stdoutTok) (hchk : ¬st.check = true)
    (hP : ScanProp { st with stdout := true } rest st2) : ScanProp st (v :: rest) st2 := by
  obtain ⟨p1, p2, p3⟩ := hP
  refine ⟨(fun _ hx => p1 (fun _ => by simpa using hchk) hx), (fun _ => ?_), (fun hx => ?_)⟩
  · exact Or.inr ⟨v, List.mem_cons_self v rest, hv⟩
  · rcases p3 hx with hc | ⟨u, hu, hcu⟩
    · exact Or.inl hc
    · exact Or.inr ⟨u, List.mem_cons_of_mem _ hu, hcu⟩

theorem scanProp_set_check {st st2 : ScanState} {v : String} {rest : List String}
    (hv : classifyTok v = .checkTok) (hsd : ¬st.stdout = true)
    (hP : ScanProp { st with check := true } rest st2) : ScanProp st (v :: rest) st2 := by
  obtain ⟨p1, p2, p3⟩ := hP
  refine ⟨(fun _ hx => ?_), (fun hx => ?_), (fun _ => ?_)⟩
  · exact p1 (fun hs => absurd hs hsd) hx
  · rcases p2 hx with hc | ⟨u, hu, hcu⟩
    · exact Or.inl hc
    · exact Or.inr ⟨u, List.mem_cons_of_mem _ hu, hcu⟩
  · exact Or.inr ⟨v, List.mem_cons_self v rest, hv⟩

set_option maxHeartbeats 2000000 in
/-- Completed scans satisfy `ScanProp`, by strong induction on the number
of remaining argument tokens. -/
theorem scanArgs_done_prop_aux :
    ∀ (n : Nat) (args : List String), args.length ≤ n →
      ∀ (st : ScanState) (dd : Bool) (st2 : ScanState),
        scanArgs st dd args = .done st2 → ScanProp st args st2 := by
  intro n
  induction n with
  | zero =>
      intro args hlen st dd st2 h
      have ha : args = [] := List.length_eq_zero.mp (Nat.le_zero.mp hlen)
      subst ha
      have h2 : ScanResult.done st = ScanResult.done st2 := h
      injection h2 with he
      subst he
      exact ⟨fun hpre => hpre, fun hs => Or.inl hs, fun hc => Or.inl hc⟩
  | succ n ih =>
      intro args hlen st dd st2 h
      match args, hlen, h with
      | [], hlen, h =>
          have h2 : ScanResult.done st = ScanResult.done st2 := h
          injection h2 with he
          subst he
          exact ⟨fun hpre => hpre, fun hs => Or.inl hs, fun hc => Or.inl hc⟩
      | [v], hlen, h =>
          rw [scanArgs.eq_2] at h
          split at h <;> (repeat' split at h) <;>
            first
            | exact ScanResult.noConfusion h
            | exact scanProp_tail
                (ih _ (by simp only [List.length_nil, List.length_cons] at hlen ⊢; omega)
                  _ _ _ h) rfl rfl
            | exact scanProp_set_stdout ‹_› ‹_›
                (ih _ (by simp only [List.length_nil, List.length_cons] at hlen ⊢; omega)
                  _ _ _ h)
            | exact scanProp_set_check ‹_› ‹_›
                (ih _ (by simp only [List.length_nil, List.length_cons] at hlen ⊢; omega)
                  _ _ _ h)
      | v :: v2 :: rest, hlen, h =>
          rw [scanArgs.eq_3] at h
          split at h <;> (repeat' split at h) <;>
            first
            | exact ScanResult.noConfusion h
            | exact scanProp_tail
                (ih _ (by simp only [List.length_nil, List.length_cons] at hlen ⊢; omega)
                  _ _ _ h) rfl rfl
            | exact scanProp_tail (scanProp_tail
                (ih _ (by simp only [List.length_nil, List.length_cons] at hlen ⊢; omega)
                  _ _ _ h) rfl rfl) rfl rfl
            | exact scanProp_set_stdout ‹_› ‹_›
                (ih _ (by simp only [List.length_nil, List.length_cons] at hlen ⊢; omega)
                  _ _ _ h)
            | exact scanProp_set_check ‹_› ‹_›
                (ih _ (by simp only [List.length_nil, List.length_cons] at hlen ⊢; omega)
                  _ _ _ h)

/-- Every completed scan satisfies `ScanProp`. -/
theorem scanArgs_done_prop {args : List String} {st : ScanState} {dd : Bool}
    {st2 : ScanState} (h : scanArgs st dd args = .done st2) : ScanProp st args st2 :=
  scanArgs_done_prop_aux args.length args (Nat.le_refl _) st dd st2 h

theorem flagsMono_step {st stm st2 : ScanState}
    (hP : (stm.stdout = true → st2.stdout = true) ∧
      (stm.check = true → st2.check = true))
    (h1 : st.stdout = true → stm.stdout = true)
    (h2 : st.check = true → stm.check = true) :
    (st.stdout = true → st2.stdout = true) ∧ (st.check = true → st2.check = true) :=
  ⟨fun hx => hP.1 (h1 hx), fun hx => hP.2 (h2 hx)⟩

set_option maxHeartbeats 2000000 in
/-- The scan never clears the stdout or check flag: strong induction on the
number of remaining tokens. -/
theorem scanArgs_flags_mono_aux :
    ∀ (n : Nat) (args : List String), args.length ≤ n →
      ∀ (st : ScanState) (dd : Bool) (st2 : ScanState),
        scanArgs st dd args = .done st2 →
          (st.stdout = true → st2.stdout = true) ∧
          (st.check = true → st2.check = true) := by
  intro n
  induction n with
  | zero =>
      intro args hlen st dd st2 h
      have ha : args = [] := List.length_eq_zero.mp (Nat.le_zero.mp hlen)
      subst ha
      have h2 : ScanResult.done st = ScanResult.done st2 := h
      injection h2 with he
      subst he
      exact ⟨fun hx => hx, fun hx => hx⟩
  | succ n ih =>
      intro args hlen st dd st2 h
      match args, hlen, h with
      | [], hlen, h =>
          have h2 : ScanResult.done st = ScanResult.done st2 := h
          injection h2 with he
          subst he
          exact ⟨fun hx => hx, fun hx => hx⟩
      | [v], hlen, h =>
          rw [scanArgs.eq_2] at h
          split at h <;> (repeat' split at h) <;>
            first
            | exact ScanResult.noConfusion h
            | exact flagsMono_step
                (ih _ (by simp only [List.length_nil, List.length_cons] at hlen ⊢; omega)
                  _ _ _ h)
                (fun hx => hx) (fun hx => hx)
            | exact flagsMono_step
                (ih _ (by simp only [List.length_nil, List.length_cons] at hlen ⊢; omega)
                  _ _ _ h)
                (fun _ => rfl) (fun hx => hx)
            | exact flagsMono_step
                (ih _ (by simp only [List.length_nil, List.length_cons] at hlen ⊢; omega)
                  _ _ _ h)
                (fun hx => hx) (fun _ => rfl)
      | v :: v2 :: rest, hlen, h =>
          rw [scanArgs.eq_3] at h
          split at h <;> (repeat' split at h) <;>
            first
            | exact ScanResult.noConfusion h
            | exact flagsMono_step
                (ih _ (by simp only [List.length_nil, List.length_cons] at hlen ⊢; omega)
                  _ _ _ h)
                (fun hx => hx) (fun hx => hx)
            | exact flagsMono_step
                (ih _ (by simp only [List.length_nil, List.length_cons] at hlen ⊢; omega)
                  _ _ _ h)
                (fun _ => rfl) (fun hx => hx)
            | exact flagsMono_step
                (ih _ (by simp only [List.length_nil, List.length_cons] at hlen ⊢; omega)
                  _ _ _ h)
                (fun hx => hx) (fun _ => rfl)

/-- Flag monotonicity of a completed scan. -/
theorem scanArgs_flags_mono {st : ScanState} {dd : Bool} {args : List String}
    {st2 : ScanState} (h : scanArgs st dd args = .done st2) :
    (st.stdout = true → st2.stdout = true) ∧ (st.check = true → st2.check = true) :=
  scanArgs_flags_mono_aux args.length args (Nat.le_refl _) st dd st2 h

theorem tokProp_nil {dd : Bool} {st2 : ScanState} : TokProp dd [] st2 :=
  fun _ =>
    ⟨fun t ht => absurd ht (List.not_mem_nil t),
     fun t ht => absurd ht (List.not_mem_nil t),
     fun t ht => absurd ht (List.not_mem_nil t)⟩

theorem tokProp_dd_true {dd : Bool} {args : List String} {st2 : ScanState}
    (hdd : dd = true) : TokProp dd args st2 :=
  fun hf => absurd (hf ▸ hdd) (by decide)

theorem tokProp_step_dd {dd : Bool} {v : String} {rest : List String}
    {st2 : ScanState} (hv : classifyTok v = .dashdash) :
    TokProp dd (v :: rest) st2 := by
  intro _
  have hbd : beforeDD (v :: rest) = [] := by
    rw [beforeDD_cons, if_pos (classifyTok_dashdash hv)]
  rw [hbd]
  exact ⟨fun t ht => absurd ht (List.not_mem_nil t),
    fun t ht => absurd ht (List.not_mem_nil t),
    fun t ht => absurd ht (List.not_mem_nil t)⟩

theorem tokProp_step_tail {dd : Bool} {v : String} {rest : List String}
    {st2 : ScanState} {k : TokKind} (hv : classifyTok v = k)
    (h1 : k ≠ TokKind.dashdash) (h2 : k ≠ TokKind.stdoutTok)
    (h3 : k ≠ TokKind.checkTok) (h4 : k ≠ TokKind.flagEq)
    (hP : TokProp dd rest st2) : TokProp dd (v :: rest) st2 := by
  intro hdd
  obtain ⟨p1, p2, p3⟩ := hP hdd
  have hne : v ≠ "--" := by
    intro he
    rw [he] at hv
    exact h1 (hv.symm.trans (by decide))
  have hbd : beforeDD (v :: rest) = v :: beforeDD rest := by
    rw [beforeDD_cons, if_neg hne]
  rw [hbd]
  refine ⟨?_, ?_, ?_⟩ <;> intro t ht
  · rcases List.mem_cons.mp ht with rfl | hm
    · intro hc
      exact absurd (hv.symm.trans hc) h2
    · exact p1 t hm
  · rcases List.mem_cons.mp ht with rfl | hm
    · intro hc
      exact absurd (hv.symm.trans hc) h3
    · exact p2 t hm
  · rcases List.mem_cons.mp ht with rfl | hm
    · intro hc
      exact absurd (hv.symm.trans hc) h4
    · exact p3 t hm

theorem tokProp_step_two {dd : Bool} {v w : String} {rest : List String}
    {st2 : ScanState} {k : TokKind} (hv : classifyTok v = k)
    (h1 : k ≠ TokKind.dashdash) (h2 : k ≠ TokKind.stdoutTok)
    (h3 : k ≠ TokKind.checkTok) (h4 : k ≠ TokKind.flagEq)
    (hw : ¬looksLikeOption w = true)
    (hP : TokProp dd rest st2) : TokProp dd (v :: w :: rest) st2 := by
  have hw2 : classifyTok w = TokKind.plain := by
    refine classify_not_option ?_
    cases hx : looksLikeOption w
    · rfl
    · exact absurd hx hw
  intro hdd
  obtain ⟨p1, p2, p3⟩ := hP hdd
  have hne : v ≠ "--" := by
    intro he
    rw [he] at hv
    exact h1 (hv.symm.trans (by decide))
  have hnew : w ≠ "--" := by
    intro he
    rw [he] at hw2
    exact TokKind.noConfusion
      ((by decide : classifyTok "--" = TokKind.dashdash).symm.trans hw2)
  have hbd : beforeDD (v :: w :: rest) = v :: w :: beforeDD rest := by
    rw [beforeDD_cons, if_neg hne, beforeDD_cons, if_neg hnew]
  rw [hbd]
  refine ⟨?_, ?_, ?_⟩ <;> intro t ht
  · rcases List.mem_cons.mp ht with rfl | hm
    · intro hc
      exact absurd (hv.symm.trans hc) h2
    · rcases List.mem_cons.mp hm with rfl | hm2
      · intro hc
        exact TokKind.noConfusion (hw2.symm.trans hc)
      · exact p1 t hm2
  · rcases List.mem_cons.mp ht with rfl | hm
    · intro hc
      exact absurd (hv.symm.trans hc) h3
    · rcases List.mem_cons.mp hm with rfl | hm2
      · intro hc
        exact TokKind.noConfusion (hw2.symm.trans hc)
      · exact p2 t hm2
  · rcases List.mem_cons.mp ht with rfl | hm
    · intro hc
      exact absurd (hv.symm.trans hc) h4
    · rcases List.mem_cons.mp hm with rfl | hm2
      · intro hc
        exact TokKind.noConfusion (hw2.symm.trans hc)
      · exact p3 t hm2

theorem tokProp_step_stdout {dd : Bool} {v : String} {rest : List String}
    {st2 : ScanState} (hv : classifyTok v = TokKind.stdoutTok)
    (hst : st2.stdout = true) (hP : TokProp dd rest st2) :
    TokProp dd (v :: rest) st2 := by
  intro hdd
  obtain ⟨p1, p2, p3⟩ := hP hdd
  have hne : v ≠ "--" := by
    intro he
    rw [he] at hv
    exact TokKind.noConfusion
      ((by decide : classifyTok "--" = TokKind.dashdash).symm.trans hv)
  have hbd : beforeDD (v :: rest) = v :: beforeDD rest := by
    rw [beforeDD_cons, if_neg hne]
  rw [hbd]
  refine ⟨?_, ?_, ?_⟩ <;> intro t ht
  · rcases List.mem_cons.mp ht with rfl | hm
    · intro _
      exact hst
    · exact p1 t hm
  · rcases List.mem_cons.mp ht with rfl | hm
    · intro hc
      exact TokKind.noConfusion (hv.symm.trans hc)
    · exact p2 t hm
  · rcases List.mem_cons.mp ht with rfl | hm
    · intro hc
      exact TokKind.noConfusion (hv.symm.trans hc)
    · exact p3 t hm

theorem tokProp_step_check {dd : Bool} {v : String} {rest : List String}
    {st2 : ScanState} (hv : classifyTok v = TokKind.checkTok)
    (hck : st2.check = true) (hP : TokProp dd rest st2) :
    TokProp dd (v :: rest) st2 := by
  intro hdd
  obtain ⟨p1, p2, p3⟩ := hP hdd
  have hne : v ≠ "--" := by
    intro he
    rw [he] at hv
    exact TokKind.noConfusion
      ((by decide : classifyTok "--" = TokKind.dashdash).symm.trans hv)
  have hbd : beforeDD (v :: rest) = v :: beforeDD rest := by
    rw [beforeDD_cons, if_neg hne]
  rw [hbd]
  refine ⟨?_, ?_, ?_⟩ <;> intro t ht
  · rcases List.mem_cons.mp ht with rfl | hm
    · intro hc
      exact TokKind.noConfusion (hv.symm.trans hc)
    · exact p1 t hm
  · rcases List.mem_cons.mp ht with rfl | hm
    · intro _
      exact hck
    · exact p2 t hm
  · rcases List.mem_cons.mp ht with rfl | hm
    · intro hc
      exact TokKind.noConfusion (hv.symm.trans hc)
    · exact p3 t hm

set_option maxHeartbeats 2000000 in
/-- Completed scans satisfy `TokProp`: strong induction on the number of
remaining tokens. -/
theorem scanArgs_toks_aux :
    ∀ (n : Nat) (args : List String), args.length ≤ n →
      ∀ (st : ScanState) (dd : Bool) (st2 : ScanState),
        scanArgs st dd args = .done st2 → TokProp dd args st2 := by
  intro n
  induction n with
  | zero =>
      intro args hlen st dd st2 h
      have ha : args = [] := List.length_eq_zero.mp (Nat.le_zero.mp hlen)
      subst ha
      exact tokProp_nil
  | succ n ih =>
      intro args hlen st dd st2 h
      match args, hlen, h with
      | [], hlen, h => exact tokProp_nil
      | [v], hlen, h =>
          rw [scanArgs.eq_2] at h
          split at h <;> (repeat' split at h) <;>
            first
            | exact ScanResult.noConfusion h
            | exact tokProp_dd_true ‹_›
            | exact tokProp_step_dd ‹_›
            | exact tokProp_step_stdout ‹_› ((scanArgs_flags_mono h).1 rfl)
                (ih _ (by simp only [List.length_nil, List.length_cons] at hlen ⊢; omega)
                  _ _ _ h)
            | exact tokProp_step_check ‹_› ((scanArgs_flags_mono h).2 rfl)
                (ih _ (by simp only [List.length_nil, List.length_cons] at hlen ⊢; omega)
                  _ _ _ h)
            | exact tokProp_step_tail ‹_› (by decide) (by decide) (by decide) (by decide)
                (ih _ (by simp only [List.length_nil, List.length_cons] at hlen ⊢; omega)
                  _ _ _ h)
      | v :: v2 :: rest, hlen, h =>
          rw [scanArgs.eq_3] at h
          split at h <;> (repeat' split at h) <;>
            first
            | exact ScanResult.noConfusion h
            | exact tokProp_dd_true ‹_›
            | exact tokProp_step_dd ‹_›
            | exact tokProp_step_stdout ‹_› ((scanArgs_flags_mono h).1 rfl)
                (ih _ (by simp only [List.length_nil, List.length_cons] at hlen ⊢; omega)
                  _ _ _ h)
            | exact tokProp_step_check ‹_› ((scanArgs_flags_mono h).2 rfl)
                (ih _ (by simp only [List.length_nil, List.length_cons] at hlen ⊢; omega)
                  _ _ _ h)
            | exact tokProp_step_two ‹_› (by decide) (by decide) (by decide) (by decide)
                ‹_›
                (ih _ (by simp only [List.length_nil, List.length_cons] at hlen ⊢; omega)
                  _ _ _ h)
            | exact tokProp_step_tail ‹_› (by decide) (by decide) (by decide) (by decide)
                (ih _ (by simp only [List.length_nil, List.length_cons] at hlen ⊢; omega)
                  _ _ _ h)

/-- Every scan completed from before-`--` position satisfies the token
property. -/
theorem scanArgs_toks {args : List String} {st st2 : ScanState}
    (h : scanArgs st false args = .done st2) :
    (∀ t ∈ beforeDD args, classifyTok t = .stdoutTok → st2.stdout = true) ∧
    (∀ t ∈ beforeDD args, classifyTok t = .checkTok → st2.check = true) ∧
    (∀ t ∈ beforeDD args, classifyTok t ≠ .flagEq) :=
  scanArgs_toks_aux args.length args (Nat.le_refl _) st false st2 h rfl

/-! Properties of input-path validation and `cli_args`. -/



theorem creator_eq (fs : FileSystem) (cwd a : String) :
    pyproject_toml_path_creator fs cwd a =
      (if ¬ fs.pathExists (resolvedPath fs cwd a) = true then
        .error "path does not exist"
       else if ¬ fs.isFile (resolvedPath fs cwd a) = true then
        .error "path is not a file"
       else if ¬ fs.readable (resolvedPath fs cwd a) = true then
        .error "cannot read path"
       else if ¬ fs.writable (resolvedPath fs cwd a) = true then
        .error "cannot write path"
       else .ok (resolvedPath fs cwd a)) := rfl

theorem creator_ok_iff (fs : FileSystem) (cwd a : String) :
    pyproject_toml_path_creator fs cwd a = .ok (resolvedPath fs cwd a) ↔
      (fs.pathExists (resolvedPath fs cwd a) = true ∧
        fs.isFile (resolvedPath fs cwd a) = true ∧
        fs.readable (resolvedPath fs cwd a) = true ∧
        fs.writable (resolvedPath fs cwd a) = true) := by
  rw [creator_eq]
  by_cases e1 : fs.pathExists (resolvedPath fs cwd a) = true <;>
    by_cases e2 : fs.isFile (resolvedPath fs cwd a) = true <;>
      by_cases e3 : fs.readable (resolvedPath fs cwd a) = true <;>
        by_cases e4 : fs.writable (resolvedPath fs cwd a) = true <;>
          simp [e1, e2, e3, e4]

theorem creator_ok_dest {fs : FileSystem} {cwd a p : String}
    (h : pyproject_toml_path_creator fs cwd a = .ok p) :
    p = resolvedPath fs cwd a ∧ fs.pathExists p = true ∧ fs.isFile p = true ∧
      fs.readable p = true ∧ fs.writable p = true := by
  rw [creator_eq] at h
  by_cases e1 : fs.pathExists (resolvedPath fs cwd a) = true <;>
    by_cases e2 : fs.isFile (resolvedPath fs cwd a) = true <;>
      by_cases e3 : fs.readable (resolvedPath fs cwd a) = true <;>
        by_cases e4 : fs.writable (resolvedPath fs cwd a) = true <;>
          simp [e1, e2, e3, e4] at h
  exact ⟨h.symm, h ▸ e1, h ▸ e2, h ▸ e3, h ▸ e4⟩

theorem convertInputs_mem {fs : FileSystem} {cwd : String} :
    ∀ {raws ps : List String}, convertInputs fs cwd raws = .ok ps →
      ∀ p ∈ ps, ∃ a, pyproject_toml_path_creator fs cwd a = .ok p := by
  intro raws
  induction raws with
  | nil =>
      intro ps h p hp
      have h2 : Except.ok ([] : List String) = Except.ok ps := h
      injection h2 with he
      subst he
      cases hp
  | cons a rest ih =>
      intro ps h p hp
      rw [convertInputs] at h
      split at h
      · exact Except.noConfusion h
      · split at h
        · exact Except.noConfusion h
        · injection h with he
          subst he
          rcases List.mem_cons.mp hp with rfl | htail
          · exact ⟨a, by assumption⟩
          · exact ih (by assumption) p htail

theorem cli_args_ok_dest {fs : FileSystem} {cwd : String} {args : List String}
    {ns : PyProjectFmtNamespace} (h : cli_args fs cwd args = .ok ns) :
    ∃ st : ScanState, scanArgs {} false args = .done st ∧
      convertInputs fs cwd st.positionals = .ok ns.inputs ∧
      ns.stdout = st.stdout ∧ ns.check = st.check ∧ ns.indent = st.indent ∧
      ns.keep_full_version = st.keep_full_version ∧
      ns.max_supported_python = st.max_supported_python := by
  unfold cli_args at h
  split at h
  · exact CliResult.noConfusion h
  · exact CliResult.noConfusion h
  · exact CliResult.noConfusion h
  · rename_i st hscan
    split at h
    · exact CliResult.noConfusion h
    · split at h
      · exact CliResult.noConfusion h
      · rename_i paths hconv
        injection h with he
        subst he
        exact ⟨st, hscan, by simpa using hconv, rfl, rfl, rfl, rfl, rfl⟩

theorem isAbsolute_append (s t : String) (h : isAbsolute s = true) :
    isAbsolute (s ++ t) = true := by
  unfold isAbsolute at h ⊢
  rw [String.data_append]
  split at h
  · rename_i heq
    rw [heq, List.cons_append]
    rfl
  · exact Bool.noConfusion h

theorem isAbsolute_absolutePath {cwd : String} (a : String)
    (h : isAbsolute cwd = true) : isAbsolute (absolutePath cwd a) = true := by
  unfold absolutePath
  by_cases ha : isAbsolute a = true
  · rw [if_pos ha]
    exact ha
  · rw [if_neg ha]
    exact isAbsolute_append _ _ (isAbsolute_append _ _ h)

theorem creator_absolute {fs : FileSystem} {cwd a p : String}
    (hcwd : isAbsolute cwd = true)
    (h : pyproject_toml_path_creator fs cwd a = .ok p) : isAbsolute p = true := by
  have h1 := (creator_ok_dest h).1
  subst h1
  unfold resolvedPath
  split
  · exact isAbsolute_append _ _ (isAbsolute_absolutePath a hcwd)
  · exact isAbsolute_absolutePath a hcwd

/-! Idempotence of the individual normalisation steps. -/

theorem dropWhile_self (p : α → Bool) (l : List α) :
    (l.dropWhile p).dropWhile p = l.dropWhile p := by
  induction l with
  | nil => rfl
  | cons a l ih =>
      by_cases h : p a
      · simp only [List.dropWhile_cons, h, if_true]
        exact ih
      · simp only [List.dropWhile_cons, h, if_false, Bool.false_eq_true]

theorem dropTrailZeros_self (l : List Nat) :
    dropTrailZeros (dropTrailZeros l) = dropTrailZeros l := by
  unfold dropTrailZeros
  rw [List.reverse_reverse, dropWhile_self]

theorem trimRelease_idem (r : List Nat) :
    trimRelease (trimRelease r) = trimRelease r := by
  by_cases h : dropTrailZeros r = []
  · have h1 : trimRelease r = r.take 1 := by rw [trimRelease, if_pos h]
    rw [h1]
    cases r with
    | nil => rfl
    | cons a r2 =>
        have h3 : (a :: r2).reverse.dropWhile (fun n => n == 0) = [] := by
          have h4 := congrArg List.reverse h
          simpa [dropTrailZeros] using h4
        have h2 := List.dropWhile_eq_nil_iff.mp h3
        have ha : a = 0 := by simpa using h2 a (by simp)
        subst ha
        rfl
  · have h1 : trimRelease r = dropTrailZeros r := by rw [trimRelease, if_neg h]
    rw [h1, trimRelease, dropTrailZeros_self, if_neg h]

theorem trimConstraint_idem (k : Bool) (c : VerConstraint) :
    trimConstraint k (trimConstraint k c) = trimConstraint k c := by
  cases k with
  | true => rfl
  | false =>
      show VerConstraint.mk c.op (trimRelease (trimRelease c.release)) c.suffix
          = VerConstraint.mk c.op (trimRelease c.release) c.suffix
      rw [trimRelease_idem]



theorem lowerChar_cases (c : Char) :
    lowerChar c = c ∨ lowerChar c ∈ lcLetters := by
  rw [lowerChar.eq_def]
  split <;> first | (right; decide) | (left; rfl)

theorem lowerChar_fixes_lc : ∀ d ∈ lcLetters, lowerChar d = d := by decide

theorem lowerChar_idem (c : Char) : lowerChar (lowerChar c) = lowerChar c := by
  rcases lowerChar_cases c with h | h
  · rw [h]
    exact h
  · exact lowerChar_fixes_lc _ h

theorem lowerChar_sep (c : Char) (h : lowerChar c = '_' ∨ lowerChar c = '.') :
    c = '_' ∨ c = '.' := by
  rcases lowerChar_cases c with h1 | h1
  · rwa [h1] at h
  · have h2 : ∀ d ∈ lcLetters, ¬(d = '_' ∨ d = '.') := by decide
    exact absurd h (h2 _ h1)

theorem canonChar_idem (c : Char) : canonChar (canonChar c) = canonChar c := by
  unfold canonChar
  by_cases h : c = '_' ∨ c = '.'
  · simp only [h, if_true]
    decide
  · simp only [h, if_false]
    have h2 : ¬(lowerChar c = '_' ∨ lowerChar c = '.') := fun hh => h (lowerChar_sep c hh)
    simp only [h2, if_false]
    exact lowerChar_idem c

theorem canonName_idem (s : String) : canonName (canonName s) = canonName s := by
  unfold canonName
  apply congrArg
  show (s.data.map canonChar).map canonChar = s.data.map canonChar
  rw [List.map_map]
  exact List.map_congr_left fun x _ => canonChar_idem x

theorem lexLt_irrefl : ∀ l : List Char, lexLt l l = false
  | [] => rfl
  | a :: as => by
      rw [lexLt, if_neg (lt_irrefl a), if_neg (lt_irrefl a)]
      exact lexLt_irrefl as

theorem lexLt_trans : ∀ (a b c : List Char),
    lexLt a b = true → lexLt b c = true → lexLt a c = true
  | [], [], _, hab, _ => Bool.noConfusion hab
  | [], _ :: _, [], _, hbc => Bool.noConfusion hbc
  | [], _ :: _, _ :: _, _, _ => rfl
  | _ :: _, [], _, hab, _ => Bool.noConfusion hab
  | _ :: _, _ :: _, [], _, hbc => Bool.noConfusion hbc
  | a :: as, b :: bs, c :: cs, hab, hbc => by
      rw [lexLt] at hab hbc ⊢
      by_cases h1 : a < b
      · by_cases h2 : b < c
        · rw [if_pos (lt_trans h1 h2)]
        · rw [if_neg h2] at hbc
          by_cases h3 : c < b
          · rw [if_pos h3] at hbc
            exact Bool.noConfusion hbc
          · have hbceq : b = c := le_antisymm (not_lt.mp h3) (not_lt.mp h2)
            rw [if_pos (hbceq ▸ h1)]
      · rw [if_neg h1] at hab
        by_cases h4 : b < a
        · rw [if_pos h4] at hab
          exact Bool.noConfusion hab
        · rw [if_neg h4] at hab
          have habeq : a = b := le_antisymm (not_lt.mp h4) (not_lt.mp h1)
          subst habeq
          by_cases h2 : a < c
          · rw [if_pos h2]
          · rw [if_neg h2] at hbc ⊢
            by_cases h5 : c < a
            · rw [if_pos h5] at hbc
              exact Bool.noConfusion hbc
            · rw [if_neg h5] at hbc ⊢
              exact lexLt_trans as bs cs hab hbc

theorem lexLt_total : ∀ (a b : List Char), a ≠ b → lexLt a b = false →
    lexLt b a = true
  | [], [], hne, _ => absurd rfl hne
  | [], _ :: _, _, hab => Bool.noConfusion hab
  | _ :: _, [], _, _ => rfl
  | a :: as, b :: bs, hne, hab => by
      rw [lexLt] at hab ⊢
      by_cases h1 : a < b
      · rw [if_pos h1] at hab
        exact Bool.noConfusion hab
      · rw [if_neg h1] at hab
        by_cases h2 : b < a
        · rw [if_pos h2]
        · rw [if_neg h2] at hab ⊢
          have habeq : a = b := le_antisymm (not_lt.mp h2) (not_lt.mp h1)
          subst habeq
          rw [if_neg h1]
          have hne2 : as ≠ bs := fun h => hne (by rw [h])
          exact lexLt_total as bs hne2 hab

theorem strLt_irrefl (s : String) : strLt s s = false := lexLt_irrefl s.data

theorem strLt_trans {a b c : String} (h1 : strLt a b = true)
    (h2 : strLt b c = true) : strLt a c = true :=
  lexLt_trans a.data b.data c.data h1 h2

theorem strLt_total {a b : String} (hne : a ≠ b) (h : strLt a b = false) :
    strLt b a = true := by
  refine lexLt_total a.data b.data ?_ h
  intro hdata
  apply hne
  cases a
  cases b
  cases hdata
  rfl

theorem strLt_ne {a b : String} (h : strLt a b = true) : a ≠ b := by
  intro he
  subst he
  rw [strLt_irrefl] at h
  exact Bool.noConfusion h

theorem strLt_of_not {x y : String} (h1 : ¬x = y) (h2 : ¬strLt x y = true) :
    strLt y x = true := by
  have h3 : strLt x y = false := by
    cases hv : strLt x y
    · rfl
    · exact absurd hv h2
  exact strLt_total h1 h3

theorem mem_insExtra {x z : String} {l : List String} (h : z ∈ insExtra x l) :
    z = x ∨ z ∈ l := by
  induction l with
  | nil =>
      simp only [insExtra, List.mem_singleton] at h
      exact Or.inl h
  | cons y ys ih =>
      rw [insExtra] at h
      by_cases h1 : x = y
      · rw [if_pos h1] at h
        exact Or.inr h
      · rw [if_neg h1] at h
        by_cases h2 : strLt x y = true
        · rw [if_pos h2] at h
          rcases List.mem_cons.mp h with rfl | h3
          · exact Or.inl rfl
          · exact Or.inr h3
        · rw [if_neg h2] at h
          rcases List.mem_cons.mp h with rfl | h3
          · exact Or.inr (List.mem_cons_self z ys)
          · rcases ih h3 with h4 | h4
            · exact Or.inl h4
            · exact Or.inr (List.mem_cons_of_mem y h4)

theorem insExtra_pairwise {x : String} {l : List String}
    (h : l.Pairwise (fun a b => strLt a b = true)) :
    (insExtra x l).Pairwise (fun a b => strLt a b = true) := by
  induction l with
  | nil => simp [insExtra]
  | cons y ys ih =>
      rcases List.pairwise_cons.mp h with ⟨hy, hys⟩
      rw [insExtra]
      by_cases h1 : x = y
      · rw [if_pos h1]
        exact h
      · rw [if_neg h1]
        by_cases h2 : strLt x y = true
        · rw [if_pos h2]
          refine List.pairwise_cons.mpr ⟨?_, h⟩
          intro z hz
          rcases List.mem_cons.mp hz with rfl | h3
          · exact h2
          · exact strLt_trans h2 (hy z h3)
        · rw [if_neg h2]
          refine List.pairwise_cons.mpr ⟨?_, ih hys⟩
          intro z hz
          rcases mem_insExtra hz with rfl | h3
          · exact strLt_of_not h1 h2
          · exact hy z h3

theorem sortExtras_pairwise (l : List String) :
    (sortExtras l).Pairwise (fun a b => strLt a b = true) := by
  induction l with
  | nil => simp [sortExtras]
  | cons x xs ih => exact insExtra_pairwise ih

theorem insExtra_of_forall_lt {x : String} {l : List String}
    (h : ∀ y ∈ l, strLt x y = true) : insExtra x l = x :: l := by
  cases l with
  | nil => rfl
  | cons y ys =>
      have hxy : strLt x y = true := h y (List.mem_cons_self y ys)
      rw [insExtra, if_neg (strLt_ne hxy), if_pos hxy]

theorem sortExtras_of_pairwise {l : List String}
    (h : l.Pairwise (fun a b => strLt a b = true)) : sortExtras l = l := by
  induction l with
  | nil => rfl
  | cons x xs ih =>
      rcases List.pairwise_cons.mp h with ⟨hx, hxs⟩
      show insExtra x (sortExtras xs) = x :: xs
      rw [ih hxs]
      exact insExtra_of_forall_lt hx

theorem sortExtras_idem (l : List String) :
    sortExtras (sortExtras l) = sortExtras l :=
  sortExtras_of_pairwise (sortExtras_pairwise l)

theorem contains_iff_mem (ord : List String) (s : String) :
    ord.contains s = true ↔ s ∈ ord := by
  rw [List.contains_iff_exists_mem_beq]
  constructor
  · rintro ⟨a, ha, hb⟩
    rw [beq_iff_eq] at hb
    exact hb ▸ ha
  · intro h
    exact ⟨s, h, by simp⟩

theorem mem_pullKnown {key : α → String} {ord : List String} {l : List α} {x : α}
    (h : x ∈ pullKnown key ord l) : key x ∈ ord ∧ x ∈ l := by
  induction ord with
  | nil => cases h
  | cons n rest ih =>
      rw [pullKnown] at h
      rcases List.mem_append.mp h with h1 | h1
      · rcases List.mem_filter.mp h1 with ⟨hl, hk⟩
        rw [beq_iff_eq] at hk
        exact ⟨hk ▸ List.mem_cons_self _ _, hl⟩
      · rcases ih h1 with ⟨h2, h3⟩
        exact ⟨List.mem_cons_of_mem n h2, h3⟩

theorem filter_pullKnown_of_mem {key : α → String} {ord : List String}
    {l : List α} {n : String} (hnd : ord.Nodup) (hn : n ∈ ord) :
    (pullKnown key ord l).filter (fun x => key x == n) =
      l.filter (fun x => key x == n) := by
  induction ord with
  | nil => cases hn
  | cons m rest ih =>
      rw [pullKnown, List.filter_append]
      rcases List.mem_cons.mp hn with rfl | hn2
      · have h1 : (l.filter (fun x => key x == n)).filter (fun x => key x == n) =
            l.filter (fun x => key x == n) := by
          rw [List.filter_filter]
          exact List.filter_congr fun x _ => by
            cases hb : key x == n <;> simp [hb]
        have h2 : (pullKnown key rest l).filter (fun x => key x == n) = [] := by
          apply List.filter_eq_nil_iff.mpr
          intro x hx
          have h3 := (mem_pullKnown hx).1
          have h4 : key x ≠ n := by
            intro he
            exact (List.nodup_cons.mp hnd).1 (he ▸ h3)
          simpa using h4
        rw [h1, h2, List.append_nil]
      · have hne : m ≠ n := by
          intro he
          exact (List.nodup_cons.mp hnd).1 (he ▸ hn2)
        have h1 : (l.filter (fun x => key x == m)).filter (fun x => key x == n) = [] := by
          apply List.filter_eq_nil_iff.mpr
          intro x hx
          have h3 := (List.mem_filter.mp hx).2
          rw [beq_iff_eq] at h3
          simpa [h3] using hne
        rw [h1, ih (List.nodup_cons.mp hnd).2 hn2, List.nil_append]

theorem filter_pullKnown_unknown {key : α → String} {ord : List String} {l : List α} :
    (pullKnown key ord l).filter (fun x => !(ord.contains (key x))) = [] := by
  apply List.filter_eq_nil_iff.mpr
  intro x hx
  have h1 := (mem_pullKnown hx).1
  simp only [Bool.not_eq_true', Bool.not_eq_false]
  exact (contains_iff_mem ord (key x)).mpr h1

theorem pullKnown_congr {key : α → String} {ord : List String} {B C : List α}
    (h : ∀ n ∈ ord, B.filter (fun x => key x == n) = C.filter (fun x => key x == n)) :
    pullKnown key ord B = pullKnown key ord C := by
  induction ord with
  | nil => rfl
  | cons n rest ih =>
      rw [pullKnown, pullKnown, h n (List.mem_cons_self n rest),
        ih fun m hm => h m (List.mem_cons_of_mem n hm)]

theorem filter_reorderBy_known {key : α → String} {ord : List String}
    {l : List α} {n : String} (hnd : ord.Nodup) (hn : n ∈ ord) :
    (reorderBy key ord l).filter (fun x => key x == n) =
      l.filter (fun x => key x == n) := by
  rw [reorderBy, List.filter_append, filter_pullKnown_of_mem hnd hn]
  have h1 : (l.filter (fun x => !(ord.contains (key x)))).filter
      (fun x => key x == n) = [] := by
    apply List.filter_eq_nil_iff.mpr
    intro x hx
    have h2 := (List.mem_filter.mp hx).2
    rw [Bool.not_eq_true', ← Bool.not_eq_true] at h2
    have h3 : key x ∉ ord := fun hmem =>
      h2 ((contains_iff_mem ord (key x)).mpr hmem)
    have h4 : key x ≠ n := fun he => h3 (he ▸ hn)
    simpa using h4
  rw [h1, List.append_nil]

theorem filter_reorderBy_unknown {key : α → String} {ord : List String} {l : List α} :
    (reorderBy key ord l).filter (fun x => !(ord.contains (key x))) =
      l.filter (fun x => !(ord.contains (key x))) := by
  rw [reorderBy, List.filter_append, filter_pullKnown_unknown, List.nil_append,
    List.filter_filter]
  exact List.filter_congr fun x _ => by
    cases hb : ord.contains (key x) <;> simp [hb]

theorem reorderBy_idem {key : α → String} {ord : List String} {l : List α}
    (hnd : ord.Nodup) :
    reorderBy key ord (reorderBy key ord l) = reorderBy key ord l := by
  conv_lhs => rw [reorderBy]
  rw [pullKnown_congr fun n hn => filter_reorderBy_known hnd hn,
    filter_reorderBy_unknown, reorderBy]

theorem pullKnown_map {key : α → String} {f : α → α} {ord : List String}
    {l : List α} (hf : ∀ x, key (f x) = key x) :
    pullKnown key ord (l.map f) = (pullKnown key ord l).map f := by
  induction ord with
  | nil => rfl
  | cons n rest ih =>
      rw [pullKnown, pullKnown, List.map_append, ← ih, List.filter_map]
      refine congrArg (· ++ pullKnown key rest (l.map f)) ?_
      refine congrArg (List.map f) ?_
      exact List.filter_congr fun x _ => by
        show (key (f x) == n) = (key x == n)
        rw [hf x]

theorem reorderBy_map {key : α → String} {f : α → α} {ord : List String}
    {l : List α} (hf : ∀ x, key (f x) = key x) :
    reorderBy key ord (l.map f) = (reorderBy key ord l).map f := by
  rw [reorderBy, reorderBy, List.map_append, pullKnown_map hf, List.filter_map]
  refine congrArg ((pullKnown key ord l).map f ++ ·) ?_
  refine congrArg (List.map f) ?_
  exact List.filter_congr fun x _ => by
    show (!(ord.contains (key (f x)))) = (!(ord.contains (key x)))
    rw [hf x]

theorem normalizeDep_idem (k : Bool) (d : Dep) :
    normalizeDep k (normalizeDep k d) = normalizeDep k d := by
  cases d with
  | verbatim s => rfl
  | depSpec n ex cs m =>
      simp only [normalizeDep, canonName_idem, sortExtras_idem, List.map_map]
      refine congrArg (fun z => Dep.depSpec (canonName n) (sortExtras ex) z m) ?_
      exact List.map_congr_left fun c _ => trimConstraint_idem k c

theorem normalizeEntry_key (k : Bool) (e : Entry) :
    (normalizeEntry k e).key = e.key := by
  cases e with
  | mk ke v => cases v <;> rfl

theorem normalizeEntry_idem (k : Bool) (e : Entry) :
    normalizeEntry k (normalizeEntry k e) = normalizeEntry k e := by
  cases e with
  | mk ke v =>
      cases v with
      | str s => rfl
      | deps l =>
          show Entry.mk ke (.deps ((l.map (normalizeDep k)).map (normalizeDep k)))
              = Entry.mk ke (.deps (l.map (normalizeDep k)))
          rw [List.map_map]
          refine congrArg (fun z => Entry.mk ke (Value.deps z)) ?_
          exact List.map_congr_left fun d _ => normalizeDep_idem k d

theorem keyOrder_nodup : canonicalKeyOrder.Nodup := by decide

theorem tableOrder_nodup : canonicalTableOrder.Nodup := by decide

theorem normalizeTable_name (k : Bool) (t : Table) :
    (normalizeTable k t).name = t.name := by
  rw [normalizeTable]
  split <;> rfl

theorem normalizeTable_mk (k : Bool) (n : String) (es : List Entry) :
    normalizeTable k ⟨n, es⟩ =
      if canonicalTableOrder.contains n then
        ⟨n, (reorderBy Entry.key canonicalKeyOrder es).map (normalizeEntry k)⟩
      else ⟨n, es.map (normalizeEntry k)⟩ := rfl

theorem normalizeTable_idem (k : Bool) (t : Table) :
    normalizeTable k (normalizeTable k t) = normalizeTable k t := by
  cases t with
  | mk n es =>
      by_cases hc : canonicalTableOrder.contains n = true
      · have h1 : normalizeTable k (⟨n, es⟩ : Table) =
            ⟨n, (reorderBy Entry.key canonicalKeyOrder es).map (normalizeEntry k)⟩ := by
          rw [normalizeTable_mk, if_pos hc]
        rw [h1, normalizeTable_mk, if_pos hc,
          reorderBy_map (normalizeEntry_key k), reorderBy_idem keyOrder_nodup,
          List.map_map]
        refine congrArg (fun z => Table.mk n z) ?_
        exact List.map_congr_left fun e _ => normalizeEntry_idem k e
      · have h1 : normalizeTable k (⟨n, es⟩ : Table) =
            ⟨n, es.map (normalizeEntry k)⟩ := by
          rw [normalizeTable_mk, if_neg hc]
        rw [h1, normalizeTable_mk, if_neg hc, List.map_map]
        refine congrArg (fun z => Table.mk n z) ?_
        exact List.map_congr_left fun e _ => normalizeEntry_idem k e

theorem normalizeDoc_idem (cfg : FmtConfig) (d : Document) :
    normalizeDoc cfg (normalizeDoc cfg d) = normalizeDoc cfg d := by
  simp only [normalizeDoc]
  rw [reorderBy_map fun t => normalizeTable_name cfg.keep_full_version t,
    reorderBy_idem tableOrder_nodup,
    ← reorderBy_map fun t => normalizeTable_name cfg.keep_full_version t,
    List.map_map]
  refine congrArg (reorderBy Table.name canonicalTableOrder) ?_
  exact List.map_congr_left fun t _ =>
    normalizeTable_idem cfg.keep_full_version t

/-! Round trip: parsing the serialized form of a document recovers it. -/



theorem groupArrays_header (n : String) (rest : List DocLine) :
    groupArrays none (.header n :: rest) =
      (groupArrays none rest).map (.header n :: ·) := rfl

theorem groupArrays_arrOpen (k : String) (rest : List DocLine) :
    groupArrays none (.arrOpen k :: rest) = groupArrays (some (k, [])) rest := rfl

theorem groupArrays_arrElem (k : String) (acc : List Dep) (i : Nat) (d : Dep)
    (rest : List DocLine) :
    groupArrays (some (k, acc)) (.arrElem i d :: rest) =
      groupArrays (some (k, acc ++ [d])) rest := rfl

theorem groupArrays_arrClose (k : String) (acc : List Dep) (rest : List DocLine) :
    groupArrays (some (k, acc)) (.arrClose :: rest) =
      (groupArrays none rest).map (.entry ⟨k, .deps acc⟩ :: ·) := rfl

theorem groupArrays_elems (k : String) (i : Nat) (ds acc : List Dep)
    (rest : List DocLine) :
    groupArrays (some (k, acc)) (ds.map (.arrElem i) ++ .arrClose :: rest) =
      (groupArrays none rest).map (.entry ⟨k, .deps (acc ++ ds)⟩ :: ·) := by
  induction ds generalizing acc with
  | nil =>
      rw [List.map_nil, List.nil_append, groupArrays_arrClose, List.append_nil]
  | cons d ds ih =>
      rw [List.map_cons, List.cons_append, groupArrays_arrElem, ih]
      simp [List.append_assoc]

theorem groupArrays_renderEntry (i : Nat) (e : Entry) (rest : List DocLine) :
    groupArrays none (renderEntry i e ++ rest) =
      (groupArrays none rest).map (.entry e :: ·) := by
  cases e with
  | mk k v =>
      cases v with
      | str s => rfl
      | deps l =>
          by_cases hl : l.length ≤ 1
          · have h1 : renderEntry i ⟨k, .deps l⟩ = [.arrInline k l] := by
              show (if l.length ≤ 1 then [DocLine.arrInline k l]
                else .arrOpen k :: l.map (.arrElem i) ++ [.arrClose]) = _
              rw [if_pos hl]
            rw [h1]
            rfl
          · have h1 : renderEntry i ⟨k, .deps l⟩ =
                .arrOpen k :: l.map (.arrElem i) ++ [.arrClose] := by
              show (if l.length ≤ 1 then [DocLine.arrInline k l]
                else .arrOpen k :: l.map (.arrElem i) ++ [.arrClose]) = _
              rw [if_neg hl]
            rw [h1, List.append_assoc, List.singleton_append, List.cons_append,
              groupArrays_arrOpen, groupArrays_elems, List.nil_append]

theorem renderEntries_cons (i : Nat) (e : Entry) (es : List Entry) :
    renderEntries i (e :: es) = renderEntry i e ++ renderEntries i es := rfl

theorem groupArrays_renderEntries (i : Nat) (es : List Entry)
    (rest : List DocLine) :
    groupArrays none (renderEntries i es ++ rest) =
      (groupArrays none rest).map (fun ls => es.map LLine.entry ++ ls) := by
  induction es with
  | nil =>
      show groupArrays none rest = _
      cases groupArrays none rest <;> rfl
  | cons e es ih =>
      rw [renderEntries_cons, List.append_assoc, groupArrays_renderEntry, ih,
        Option.map_map]
      rfl

theorem serializeDoc_cons (i : Nat) (t : Table) (ds : Document) :
    serializeDoc i (t :: ds) =
      (.header t.name :: renderEntries i t.entries) ++ serializeDoc i ds := rfl

theorem groupArrays_serialize (i : Nat) (d : Document) :
    groupArrays none (serializeDoc i d) = some (flattenDoc d) := by
  induction d with
  | nil => rfl
  | cons t ds ih =>
      rw [serializeDoc_cons, List.cons_append, groupArrays_header,
        groupArrays_renderEntries, ih]
      rfl

theorem groupTablesIn_entry (n : String) (acc : List Entry) (e : Entry)
    (rest : List LLine) :
    groupTablesIn n acc (.entry e :: rest) = groupTablesIn n (acc ++ [e]) rest := rfl

theorem groupTablesIn_header (n m : String) (acc : List Entry)
    (rest : List LLine) :
    groupTablesIn n acc (.header m :: rest) =
      (groupTablesIn m [] rest).map (⟨n, acc⟩ :: ·) := rfl

theorem groupTablesIn_entries (n : String) (acc es : List Entry)
    (rest : List LLine) :
    groupTablesIn n acc (es.map .entry ++ rest) =
      groupTablesIn n (acc ++ es) rest := by
  induction es generalizing acc with
  | nil => rw [List.map_nil, List.nil_append, List.append_nil]
  | cons e es ih =>
      rw [List.map_cons, List.cons_append, groupTablesIn_entry, ih]
      simp [List.append_assoc]

theorem flattenDoc_cons (t : Table) (ds : Document) :
    flattenDoc (t :: ds) =
      .header t.name :: t.entries.map .entry ++ flattenDoc ds := rfl

theorem groupTables_header (n : String) (rest : List LLine) :
    groupTables (.header n :: rest) = groupTablesIn n [] rest := rfl

theorem groupTablesIn_flatten (n : String) (acc : List Entry) (d : Document) :
    groupTablesIn n acc (flattenDoc d) = some (⟨n, acc⟩ :: d) := by
  induction d generalizing n acc with
  | nil => rfl
  | cons t ds ih =>
      rw [flattenDoc_cons, List.cons_append, groupTablesIn_header,
        groupTablesIn_entries, List.nil_append, ih]
      rfl

theorem groupTables_flatten (d : Document) : groupTables (flattenDoc d) = some d := by
  cases d with
  | nil => rfl
  | cons t ds =>
      rw [flattenDoc_cons, List.cons_append, groupTables_header,
        groupTablesIn_entries, List.nil_append, groupTablesIn_flatten]

theorem parseDoc_serializeDoc (i : Nat) (d : Document) :
    parseDoc (serializeDoc i d) = some d := by
  rw [parseDoc, groupArrays_serialize]
  exact groupTables_flatten d

/-- Idempotence of the orchestrator: once formatted, a document formats to
itself with `changed = false`. -/
theorem format_idempotent_aux (cfg : FmtConfig) (text out : List DocLine)
    (ch : Bool) (h : format cfg text = some (out, ch)) :
    format cfg out = some (out, false) := by
  rcases hp : parseDoc text with _ | d
  · rw [format, hp] at h
    cases h
  · rw [format, hp, Option.map_some'] at h
    have hout : out = serializeDoc cfg.indent (normalizeDoc cfg d) :=
      congrArg Prod.fst (Option.some.inj h).symm
    subst hout
    rw [format, parseDoc_serializeDoc, Option.map_some', normalizeDoc_idem]
    simp

/-! Helper steps for computing `cli_args` runs. -/

theorem cli_args_eq_done {fs : FileSystem} {cwd : String} {args : List String}
    {st : ScanState} (h : scanArgs {} false args = .done st) :
    cli_args fs cwd args =
      (if st.positionals = [] then
        .error "the following arguments are required: inputs"
       else
        match convertInputs fs cwd st.positionals with
        | .error e => .error ("argument inputs: " ++ e)
        | .ok paths =>
            .ok { inputs := paths, stdout := st.stdout, check := st.check,
                  indent := st.indent, keep_full_version := st.keep_full_version,
                  max_supported_python := st.max_supported_python }) := by
  unfold cli_args
  rw [h]

theorem cli_args_eq_fail {fs : FileSystem} {cwd : String} {args : List String}
    {e : String} (h : scanArgs {} false args = .fail e) :
    cli_args fs cwd args = .error e := by
  unfold cli_args
  rw [h]

/-! The claims. -/

/-- C1: Formatting is idempotent — for every valid document text `D` (one
the parser accepts) and configuration `C`, applying `format` to the output
of `format D C` yields `changed = false` (and the same output text). -/
theorem c1_format_idempotent (cfg : FmtConfig) (text out : List DocLine)
    (ch : Bool) (h : format cfg text = some (out, ch)) :
    format cfg out = some (out, false) :=
  format_idempotent_aux cfg text out ch h

theorem c1_format_idempotent_witness :
    format {} textEx = some (outEx, true) ∧ format {} outEx = some (outEx, false) :=
  ⟨by decide, c1_format_idempotent {} textEx outEx true (by decide)⟩

/-- C2: Version trimming — with `keep_full_version = false`, `"1.0.0"`
becomes `"1"`, `"1.2.0"` becomes `"1.2"`, `"1.0.1"` is unchanged and
`"0.0.0"` becomes `"0"`; with `keep_full_version = true` every version
string is unchanged; operators and pre/post/dev suffixes are never altered;
trimming always keeps at least one release component and only ever removes
a trailing segment. -/
theorem c2_version_trimming :
    trimVersionStr false "1.0.0" = "1" ∧ trimVersionStr false "1.2.0" = "1.2" ∧
    trimVersionStr false "1.0.1" = "1.0.1" ∧ trimVersionStr false "0.0.0" = "0" ∧
    (∀ s : String, trimVersionStr true s = s) ∧
    (∀ (keep : Bool) (c : VerConstraint),
      (trimConstraint keep c).op = c.op ∧ (trimConstraint keep c).suffix = c.suffix) ∧
    (∀ c : VerConstraint, trimConstraint true c = c) ∧
    (∀ r : List Nat, r ≠ [] → trimRelease r ≠ []) ∧
    (∀ r : List Nat, trimRelease r <+: r) := by
  refine ⟨by decide, by decide, by decide, by decide, fun s => rfl, ?_, fun c => rfl,
    ?_, ?_⟩
  · intro keep c
    cases keep <;> exact ⟨rfl, rfl⟩
  · intro r hr
    by_cases h : dropTrailZeros r = []
    · rw [trimRelease, if_pos h]
      cases r with
      | nil => exact absurd rfl hr
      | cons a r2 => simp
    · rw [trimRelease, if_neg h]
      exact h
  · intro r
    by_cases h : dropTrailZeros r = []
    · rw [trimRelease, if_pos h]
      exact List.take_prefix 1 r
    · rw [trimRelease, if_neg h]
      have h3 : r.reverse.dropWhile (fun n => n == 0) <:+ r.reverse :=
        List.dropWhile_suffix _
      have h4 := List.reverse_prefix.mpr h3
      rwa [List.reverse_reverse] at h4

theorem c2_version_trimming_witness :
    ([1, 0] : List Nat) ≠ [] ∧ trimRelease [1, 0] ≠ [] :=
  ⟨by decide, c2_version_trimming.2.2.2.2.2.2.2.1 [1, 0] (by decide)⟩

/-- C3 counterexample: three refutations of the original claim.  The list
`["--indent"]` contains none of `-s`, `--stdout`, `--check`, yet parsing
does not succeed.  The list `["--std", "/w/ok"]` also contains none of
them, yet — `argparse` resolving the unambiguous abbreviation `--std` —
parsing succeeds with `stdout = true`, not with both flags false.  And the
list `["-V", "-s", "--check", "/w/ok"]` contains both `-s` and `--check`,
yet `cli_args` does not fail with a configuration error: the preceding
`-V` version action exits first. -/
theorem c3_counterexample :
    (("-s" ∉ (["--indent"] : List String) ∧
      "--stdout" ∉ (["--indent"] : List String) ∧
      "--check" ∉ (["--indent"] : List String)) ∧
     cli_args fsEx "/w" ["--indent"] =
       .error "argument --indent: expected one argument") ∧
    (("-s" ∉ (["--std", "/w/ok"] : List String) ∧
      "--stdout" ∉ (["--std", "/w/ok"] : List String) ∧
      "--check" ∉ (["--std", "/w/ok"] : List String)) ∧
     cli_args fsEx "/w" ["--std", "/w/ok"] =
       .ok { inputs := ["/w/ok"], stdout := true, check := false, indent := 2,
             keep_full_version := false,
             max_supported_python := ⟨0, [3, 13], []⟩ }) ∧
    ("-s" ∈ (["-V", "-s", "--check", "/w/ok"] : List String) ∧
     "--check" ∈ (["-V", "-s", "--check", "/w/ok"] : List String) ∧
     cli_args fsEx "/w" ["-V", "-s", "--check", "/w/ok"] = .versionExit) :=
  ⟨⟨by decide, by decide⟩, ⟨by decide, by decide⟩, by decide, by decide, by decide⟩

/-- C3 (amended): mutual exclusion under `argparse` resolution.  (i) No
parsed namespace ever has both `stdout` and `check` set.  (ii) If, before
any `--` separator, the argument list has both a token resolving to the
stdout action and a token resolving to `--check`, then `cli_args` never
returns a namespace.  (iii) If no token of the list resolves to either
option, any successful parse leaves both flags false — the in-place-write
default. -/
theorem c3_stdout_check_exclusive (fs : FileSystem) (cwd : String)
    (args : List String) :
    (∀ ns, cli_args fs cwd args = .ok ns → ¬(ns.stdout = true ∧ ns.check = true)) ∧
    ((∃ t ∈ beforeDD args, resolvesStdout t = true) →
      (∃ t ∈ beforeDD args, resolvesCheck t = true) →
      ∀ ns, cli_args fs cwd args ≠ .ok ns) ∧
    ((∀ t ∈ args, resolvesStdout t = false ∧ resolvesCheck t = false) →
      ∀ ns, cli_args fs cwd args = .ok ns →
        ns.stdout = false ∧ ns.check = false) := by
  refine ⟨?_, ?_, ?_⟩
  · intro ns hok
    obtain ⟨st, hscan, _, hso, hch, _, _, _⟩ := cli_args_ok_dest hok
    rintro ⟨hs, hc⟩
    have hp1 := (scanArgs_done_prop hscan).1 (fun hx => absurd hx (by decide))
      (hso ▸ hs)
    rw [hch, hp1] at hc
    exact Bool.noConfusion hc
  · rintro ⟨ts, hts, hrs⟩ ⟨tc, htc, hrc⟩ ns hok
    obtain ⟨st, hscan, _, hso, hch, _, _, _⟩ := cli_args_ok_dest hok
    obtain ⟨q1, q2, q3⟩ := scanArgs_toks hscan
    have hst : st.stdout = true := by
      rcases resolvesStdout_classify hrs with hcl | hcl
      · exact q1 ts hts hcl
      · exact absurd hcl (q3 ts hts)
    have hck : st.check = true := by
      rcases resolvesCheck_classify hrc with hcl | hcl
      · exact q2 tc htc hcl
      · exact absurd hcl (q3 tc htc)
    have hp1 := (scanArgs_done_prop hscan).1 (fun hx => absurd hx (by decide)) hst
    rw [hp1] at hck
    exact Bool.noConfusion hck
  · intro hnone ns hok
    obtain ⟨st, hscan, _, hso, hch, _, _, _⟩ := cli_args_ok_dest hok
    obtain ⟨_, p2, p3⟩ := scanArgs_done_prop hscan
    constructor
    · cases hval : ns.stdout with
      | false => rfl
      | true =>
          have hst : st.stdout = true := hso ▸ hval
          rcases p2 hst with habs | ⟨t, htm, hcl⟩
          · exact absurd habs (by decide)
          · have h1 := (hnone t htm).1
            rw [classify_stdout_resolves hcl] at h1
            exact Bool.noConfusion h1
    · cases hval : ns.check with
      | false => rfl
      | true =>
          have hck : st.check = true := hch ▸ hval
          rcases p3 hck with habs | ⟨t, htm, hcl⟩
          · exact absurd habs (by decide)
          · have h1 := (hnone t htm).2
            rw [classify_check_resolves hcl] at h1
            exact Bool.noConfusion h1

theorem c3_stdout_check_exclusive_witness :
    (¬(nsEx.stdout = true ∧ nsEx.check = true)) ∧
    cli_args fsEx "/w" ["-s", "--check", "/w/ok"] ≠ .ok nsEx ∧
    (nsEx.stdout = false ∧ nsEx.check = false) :=
  ⟨(c3_stdout_check_exclusive fsEx "/w" ["/w/ok"]).1 nsEx (by decide),
   (c3_stdout_check_exclusive fsEx "/w" ["-s", "--check", "/w/ok"]).2.1
     ⟨"-s", by decide, by decide⟩ ⟨"--check", by decide, by decide⟩ nsEx,
   (c3_stdout_check_exclusive fsEx "/w" ["/w/ok"]).2.2
     (by decide) nsEx (by decide)⟩

/-- C4: Eager input validation — a validated path exists, is a regular
file, and is readable and writable; each failing check produces its
descriptive error (in check order); and validation never reads any file's
content. -/
theorem c4_input_validation (fs : FileSystem) (cwd a : String) :
    (∀ p, pyproject_toml_path_creator fs cwd a = .ok p →
      fs.pathExists p = true ∧ fs.isFile p = true ∧ fs.readable p = true ∧
        fs.writable p = true) ∧
    (fs.pathExists (resolvedPath fs cwd a) = false →
      pyproject_toml_path_creator fs cwd a = .error "path does not exist") ∧
    (fs.pathExists (resolvedPath fs cwd a) = true →
      fs.isFile (resolvedPath fs cwd a) = false →
      pyproject_toml_path_creator fs cwd a = .error "path is not a file") ∧
    (fs.pathExists (resolvedPath fs cwd a) = true →
      fs.isFile (resolvedPath fs cwd a) = true →
      fs.readable (resolvedPath fs cwd a) = false →
      pyproject_toml_path_creator fs cwd a = .error "cannot read path") ∧
    (fs.pathExists (resolvedPath fs cwd a) = true →
      fs.isFile (resolvedPath fs cwd a) = true →
      fs.readable (resolvedPath fs cwd a) = true →
      fs.writable (resolvedPath fs cwd a) = false →
      pyproject_toml_path_creator fs cwd a = .error "cannot write path") ∧
    (∀ g, pyproject_toml_path_creator { fs with content := g } cwd a =
      pyproject_toml_path_creator fs cwd a) := by
  refine ⟨fun p hp => (creator_ok_dest hp).2, ?_, ?_, ?_, ?_, fun g => rfl⟩
  · intro e1
    rw [creator_eq]
    simp [e1]
  · intro e1 e2
    rw [creator_eq]
    simp [e1, e2]
  · intro e1 e2 e3
    rw [creator_eq]
    simp [e1, e2, e3]
  · intro e1 e2 e3 e4
    rw [creator_eq]
    simp [e1, e2, e3, e4]

theorem c4_input_validation_witness :
    fsEx.pathExists "/w/ok" = true ∧ fsEx.isFile "/w/ok" = true ∧
      fsEx.readable "/w/ok" = true ∧ fsEx.writable "/w/ok" = true :=
  (c4_input_validation fsEx "/w" "/w/ok").1 "/w/ok" (by decide)

/-- C5 counterexample: with `/w/ok` a perfectly valid input, adding the
missing path `/w/missing` makes the whole invocation fail — the other
file's processing is aborted, refuting per-file error isolation. -/
theorem c5_counterexample :
    cli_args fsEx "/w" ["/w/missing", "/w/ok"] =
      .error "argument inputs: path does not exist" ∧
    cli_args fsEx "/w" ["/w/ok"] = .ok nsEx :=
  ⟨by decide, by decide⟩

/-- C5 (amended): an input error on any path is fatal to the entire
invocation — `cli_args` only returns a namespace when every input path
passed all validation checks, so no file is processed when any input is
invalid. -/
theorem c5_input_error_aborts (fs : FileSystem) (cwd : String)
    (args : List String) (ns : PyProjectFmtNamespace)
    (h : cli_args fs cwd args = .ok ns) :
    ∀ p ∈ ns.inputs, fs.pathExists p = true ∧ fs.isFile p = true ∧
      fs.readable p = true ∧ fs.writable p = true := by
  obtain ⟨st, hscan, hconv, _, _, _, _, _⟩ := cli_args_ok_dest h
  intro p hp
  obtain ⟨a, ha⟩ := convertInputs_mem hconv p hp
  exact (creator_ok_dest ha).2

theorem c5_input_error_aborts_witness :
    fsEx.pathExists "/w/ok" = true ∧ fsEx.isFile "/w/ok" = true ∧
      fsEx.readable "/w/ok" = true ∧ fsEx.writable "/w/ok" = true :=
  c5_input_error_aborts fsEx "/w" ["/w/ok"] nsEx (by decide) "/w/ok" (by decide)

/-- C6: a directory argument gets the default file name `pyproject.toml`
appended before the existence/file/permission checks, so it is accepted
exactly when the directory contains a readable and writable regular file of
that name — and the returned path is always that child path. -/
theorem c6_directory_default_file (fs : FileSystem) (cwd a : String)
    (hdir : fs.isDir (absolutePath cwd a) = true) :
    (pyproject_toml_path_creator fs cwd a =
        .ok (absolutePath cwd a ++ "/pyproject.toml") ↔
      (fs.pathExists (absolutePath cwd a ++ "/pyproject.toml") = true ∧
        fs.isFile (absolutePath cwd a ++ "/pyproject.toml") = true ∧
        fs.readable (absolutePath cwd a ++ "/pyproject.toml") = true ∧
        fs.writable (absolutePath cwd a ++ "/pyproject.toml") = true)) ∧
    (∀ p, pyproject_toml_path_creator fs cwd a = .ok p →
      p = absolutePath cwd a ++ "/pyproject.toml") := by
  have hres : resolvedPath fs cwd a = absolutePath cwd a ++ "/pyproject.toml" := by
    unfold resolvedPath
    rw [if_pos hdir]
  constructor
  · have h1 := creator_ok_iff fs cwd a
    rwa [hres] at h1
  · intro p hp
    have h1 := (creator_ok_dest hp).1
    rw [h1, hres]

theorem c6_directory_default_file_witness :
    fsDir.isDir (absolutePath "/w" "proj") = true ∧
    pyproject_toml_path_creator fsDir "/w" "proj" =
      .ok (absolutePath "/w" "proj" ++ "/pyproject.toml") :=
  ⟨by decide, ((c6_directory_default_file fsDir "/w" "proj" (by decide)).1).mpr
    ⟨by decide, by decide, by decide, by decide⟩⟩

/-- C7 counterexample: `--indent -2` is accepted and the parsed namespace
stores the negative value `-2`, refuting the claim that the parsed indent
is always a non-negative integer. -/
theorem c7_counterexample :
    cli_args fsEx "/w" ["--indent", "-2", "/w/ok"] =
      .ok { inputs := ["/w/ok"], stdout := false, check := false, indent := -2,
            keep_full_version := false,
            max_supported_python := ⟨0, [3, 13], []⟩ } ∧
    (-2 : Int) < 0 :=
  ⟨by decide, by decide⟩

/-- C7 (amended): the parsed indent is exactly the integer `int()` parses
from the value given to `--indent` — any integer, negative values
included; the parser applies no non-negativity constraint. -/
theorem c7_indent_any_int (fs : FileSystem) (cwd s a p : String) (n : Int)
    (hlo : looksLikeOption s = false) (hpi : python_int s = some n)
    (hcl : classifyTok a = .plain)
    (hcr : pyproject_toml_path_creator fs cwd a = .ok p) :
    cli_args fs cwd ["--indent", s, a] =
      .ok { inputs := [p], stdout := false, check := false, indent := n,
            keep_full_version := false,
            max_supported_python := DEFAULT_MAX_SUPPORTED_PYTHON } := by
  have h1 : scanArgs {} false ["--indent", s, a] =
      (if looksLikeOption s = true then
        ScanResult.fail "argument --indent: expected one argument"
       else
        match python_int s with
        | some m =>
            scanArgs (ScanState.mk false false false m DEFAULT_MAX_SUPPORTED_PYTHON [])
              false [a]
        | none => ScanResult.fail ("argument --indent: invalid int value: " ++ s)) := by
    have hc : classifyTok "--indent" = TokKind.indentTok := by decide
    rw [scanArgs.eq_3, if_neg (by decide), hc]
  have h2 : scanArgs {} false ["--indent", s, a] =
      scanArgs (ScanState.mk false false false n DEFAULT_MAX_SUPPORTED_PYTHON [])
        false [a] := by
    rw [h1, hlo, hpi]
    rfl
  have h3 : scanArgs (ScanState.mk false false false n DEFAULT_MAX_SUPPORTED_PYTHON [])
      false [a] = .done (ScanState.mk false false false n DEFAULT_MAX_SUPPORTED_PYTHON [a]) := by
    rw [scanArgs.eq_2, if_neg (by decide), hcl]
    rw [scanArgs.eq_1]
    rfl
  have h5 : convertInputs fs cwd [a] = .ok [p] := by
    rw [convertInputs, hcr, convertInputs]
  rw [cli_args_eq_done (h2.trans h3)]
  rw [if_neg (by simp)]
  rw [h5]

theorem c7_indent_any_int_witness :
    looksLikeOption "-2" = false ∧ python_int "-2" = some (-2) ∧
    cli_args fsEx "/w" ["--indent", "-2", "/w/ok"] =
      .ok { inputs := ["/w/ok"], stdout := false, check := false, indent := -2,
            keep_full_version := false,
            max_supported_python := DEFAULT_MAX_SUPPORTED_PYTHON } :=
  ⟨by decide, by decide,
    c7_indent_any_int fsEx "/w" "-2" "/w/ok" "/w/ok" (-2) (by decide) (by decide)
      (by decide) (by decide)⟩

/-- C8: an invalid version value for `--max-supported-python` makes the
scan fail immediately — from any scan state — and makes `cli_args` fail
with the invalid-Version error on any filesystem whatsoever, so no input
file is read or processed. -/
theorem c8_invalid_version_fatal (fs : FileSystem) (cwd : String)
    (st : ScanState) (v : String) (rest : List String)
    (hlo : looksLikeOption v = false) (hver : python_Version v = none) :
    scanArgs st false ("--max-supported-python" :: v :: rest) =
      .fail ("argument --max-supported-python: invalid Version value: " ++ v) ∧
    cli_args fs cwd ("--max-supported-python" :: v :: rest) =
      .error ("argument --max-supported-python: invalid Version value: " ++ v) := by
  have hstep : ∀ st0 : ScanState,
      scanArgs st0 false ("--max-supported-python" :: v :: rest) =
        .fail ("argument --max-supported-python: invalid Version value: " ++ v) := by
    intro st0
    have h1 : scanArgs st0 false ("--max-supported-python" :: v :: rest) =
        (if looksLikeOption v = true then
          ScanResult.fail "argument --max-supported-python: expected one argument"
         else
          match python_Version v with
          | some ver => scanArgs { st0 with max_supported_python := ver } false rest
          | none =>
              ScanResult.fail
                ("argument --max-supported-python: invalid Version value: " ++ v)) := by
      have hc : classifyTok "--max-supported-python" = TokKind.mspTok := by decide
      rw [scanArgs.eq_3, if_neg (by decide), hc]
    rw [h1, hlo, hver]
    rfl
  exact ⟨hstep st, cli_args_eq_fail (hstep {})⟩

theorem c8_invalid_version_fatal_witness :
    looksLikeOption "not-a-version" = false ∧
    python_Version "not-a-version" = none ∧
    cli_args fsEx "/w" ["--max-supported-python", "not-a-version", "/w/ok"] =
      .error "argument --max-supported-python: invalid Version value: not-a-version" := by
  refine ⟨by decide, by decide, ?_⟩
  exact (c8_invalid_version_fatal fsEx "/w" {} "not-a-version" ["/w/ok"]
    (by decide) (by decide)).2

/-- C9: `configs` yields exactly one `Config` per input path, in input
order; the i-th `Config` holds the i-th path and that file's content, and
the option fields are the parsed options, identical for every entry. -/
theorem c9_configs (fs : FileSystem) (ns : PyProjectFmtNamespace) :
    (configs fs ns).length = ns.inputs.length ∧
    ∀ (i : Nat) (h1 : i < (configs fs ns).length) (h2 : i < ns.inputs.length),
      (configs fs ns).get ⟨i, h1⟩ =
        { pyproject_toml := ns.inputs.get ⟨i, h2⟩
          toml := fs.content (ns.inputs.get ⟨i, h2⟩)
          indent := ns.indent
          keep_full_version := ns.keep_full_version
          max_supported_python := ns.max_supported_python } := by
  constructor
  · simp [configs]
  · intro i h1 h2
    simp [configs]

theorem c9_configs_witness :
    (configs fsEx nsEx).length = nsEx.inputs.length ∧
    (configs fsEx nsEx).get ⟨0, by decide⟩ =
      { pyproject_toml := "/w/ok", toml := "x", indent := 2,
        keep_full_version := false, max_supported_python := ⟨0, [3, 13], []⟩ } :=
  ⟨(c9_configs fsEx nsEx).1,
    ((c9_configs fsEx nsEx).2 0 (by decide) (by decide)).trans (by decide)⟩

/-- C10: with an absolute working directory, every path accepted by
`pyproject_toml_path_creator` is absolute, and hence so is every element of
a parsed namespace's `inputs`. -/
theorem c10_inputs_absolute (fs : FileSystem) (cwd : String)
    (hcwd : isAbsolute cwd = true) :
    (∀ a p, pyproject_toml_path_creator fs cwd a = .ok p → isAbsolute p = true) ∧
    (∀ args ns, cli_args fs cwd args = .ok ns →
      ∀ p ∈ ns.inputs, isAbsolute p = true) := by
  constructor
  · intro a p hp
    exact creator_absolute hcwd hp
  · intro args ns h p hp
    obtain ⟨st, hscan, hconv, _, _, _, _, _⟩ := cli_args_ok_dest h
    obtain ⟨a, ha⟩ := convertInputs_mem hconv p hp
    exact creator_absolute hcwd ha

theorem c10_inputs_absolute_witness : isAbsolute "/w/ok" = true :=
  (c10_inputs_absolute fsEx "/w" (by decide)).1 "/w/ok" "/w/ok" (by decide)

end PyprojectFmt
